import Mathlib

/-!
Verification of the AI-Pathfinder search engine.

This file gives a shallow embedding of the repository's grid model
(`environment/grid.py`), the neighbor ordering and path reconstruction
helpers (`utils/helpers.py`), and the uninformed search algorithms
(`algorithms/search.py`), and proves the specification claims about them.

Conventions of the embedding:
* A grid cell index is an `Int × Int` pair (Python ints may go negative,
  e.g. `row - 1`; `is_valid` is the bounds guard, as in the source).
* Python dicts keyed by cells (`came_from`, visited maps) are embedded as
  insertion-ordered association lists `List (Cell × Option Cell)`;
  `dict.get` (returning `None` both for a missing key and a `None` value)
  is `cfGet`.
* Each generator-based algorithm is embedded as an explicit state machine:
  one `...Step` function performs the body of one `while` iteration, and a
  fuel-indexed iterator runs it.  Recursive generators (`dls`, the inner
  `_dls` of `iddfs`) are embedded as structurally recursive functions on
  the depth bound, threading the mutated state.
* The unbounded backward walk of `reconstruct_path` is embedded with
  explicit fuel (`walkBack`); fuel exhaustion yields `none`.
-/

set_option maxHeartbeats 1000000
set_option maxRecDepth 100000

namespace AIPathfinder

/-- A grid position, `(row, col)`. -/
abbrev Cell := Int × Int

/-! ### Cell state constants (`Grid.EMPTY` … `Grid.DYNAMIC_OBSTACLE` in `grid.py`) -/

def EMPTY : Nat := 0
def WALL : Nat := 1
def START : Nat := 2
def GOAL : Nat := 3
def DYNAMIC_OBSTACLE : Nat := 4

/-- The grid environment of `environment/grid.py`: a `rows × cols` matrix of
cell states (embedded as a function on indices) plus the cached start and
goal positions. -/
structure Grid where
  rows : Int
  cols : Int
  cell : Int → Int → Nat
  start_pos : Option Cell
  goal_pos : Option Cell

/-- `Grid.is_valid`: `0 <= row < self.rows and 0 <= col < self.cols`. -/
def Grid.is_valid (g : Grid) (row col : Int) : Bool :=
  decide (0 ≤ row) && decide (row < g.rows) && decide (0 ≤ col) && decide (col < g.cols)

/-- `Grid.is_walkable`: in bounds and the cell is not a wall nor a dynamic
obstacle. -/
def Grid.is_walkable (g : Grid) (row col : Int) : Bool :=
  if !g.is_valid row col then false
  else !(decide (g.cell row col = WALL) || decide (g.cell row col = DYNAMIC_OBSTACLE))

/-- Write one cell of the grid matrix (`self.grid[row][col] = v`). -/
def Grid.setCell (g : Grid) (row col : Int) (v : Nat) : Grid :=
  { g with cell := fun r c => if r = row ∧ c = col then v else g.cell r c }

/-- `Grid.set_start`: clear the previous start cell (if any) to `EMPTY`,
cache the new `start_pos`, and mark the target cell `START`. -/
def Grid.set_start (g : Grid) (row col : Int) : Grid :=
  let g1 := match g.start_pos with
    | some p => g.setCell p.1 p.2 EMPTY
    | none => g
  let g2 := { g1 with start_pos := some (row, col) }
  g2.setCell row col START

/-- `Grid.set_goal`: clear the previous goal cell (if any) to `EMPTY`,
cache the new `goal_pos`, and mark the target cell `GOAL`. -/
def Grid.set_goal (g : Grid) (row col : Int) : Grid :=
  let g1 := match g.goal_pos with
    | some p => g.setCell p.1 p.2 EMPTY
    | none => g
  let g2 := { g1 with goal_pos := some (row, col) }
  g2.setCell row col GOAL

/-! ### Neighbor ordering (`utils/helpers.py`) -/

/-- The fixed 8-direction priority list of `get_neighbors_clockwise`:
Up, Right, Down, Down-Right, Down-Left, Left, Up-Left, Up-Right. -/
def directions : List (Int × Int) :=
  [(-1, 0), (0, 1), (1, 0), (1, 1), (1, -1), (0, -1), (-1, -1), (-1, 1)]

/-- `get_neighbors_clockwise(row, col, grid)`: the 8 adjacent cells in the
fixed priority order, keeping exactly those that are in bounds and
walkable (the source loop appends each candidate passing
`is_valid and is_walkable`, which is this filter). -/
def get_neighbors_clockwise (row col : Int) (g : Grid) : List Cell :=
  (directions.map (fun d => (row + d.1, col + d.2))).filter
    (fun p => g.is_valid p.1 p.2 && g.is_walkable p.1 p.2)

/-! ### Predecessor maps and path reconstruction -/

/-- A `came_from` dict: an insertion-ordered association list from cell to
optional predecessor (`None` marks the root). -/
abbrev CF := List (Cell × Option Cell)

/-- The keys of a predecessor map, in insertion order. -/
def cfKeys (cf : CF) : List Cell := cf.map Prod.fst

/-- Dict lookup: `some v` when the key is present with value `v`. -/
def cfLookup (cf : CF) (x : Cell) : Option (Option Cell) :=
  (cf.find? (fun e => decide (e.1 = x))).map (fun e => e.2)

/-- `came_from.get(x)`: `none` when the key is missing or its stored value
is `None`, otherwise the stored predecessor. -/
def cfGet (cf : CF) (x : Cell) : Option Cell :=
  (cfLookup cf x).getD none

/-- The backward walk of `reconstruct_path`: starting at `current`, follow
`get` until it yields `none`, collecting the visited cells in order.  The
source loop is unbounded; `fuel` bounds it here, and `none` reports fuel
exhaustion (a non-terminating walk). -/
def walkBack (get : Cell → Option Cell) : Nat → Cell → Option (List Cell)
  | 0, _ => none
  | fuel + 1, current =>
    match get current with
    | none => some [current]
    | some nxt => (walkBack get fuel nxt).map (fun rest => current :: rest)

/-- `reconstruct_path(came_from, start, goal)` (the dict passed via its
`get` function): walk backward from `goal`, reverse, and return the result
only if its first element is `start`, else the empty path.  `none` means
the backward walk ran out of fuel. -/
def reconstruct_path (get : Cell → Option Cell) (start goal : Cell) (fuel : Nat) :
    Option (List Cell) :=
  (walkBack get fuel goal).map (fun w =>
    let path := w.reverse
    if path.head? = some start then path else [])

/-! ### Paths in the grid (specification vocabulary)

The claims speak about "start-to-goal paths of walkable cells with
8-connected moves"; `ValidPath` is that notion, stated from the spec's
words for comparison against the algorithms. -/

/-- Reachability from `start` in exactly `n` moves along walkable neighbor
steps, as generated by `get_neighbors_clockwise`. -/
inductive ReachN (g : Grid) (start : Cell) : Nat → Cell → Prop where
  | zero : ReachN g start 0 start
  | succ {n : Nat} {u v : Cell} : ReachN g start n u →
      v ∈ get_neighbors_clockwise u.1 u.2 g → ReachN g start (n + 1) v

/-- One 8-connected move: the displacement is one of the 8 directions. -/
def stepRel (u v : Cell) : Prop := (v.1 - u.1, v.2 - u.2) ∈ directions

instance : DecidableRel stepRel := fun u v =>
  inferInstanceAs (Decidable ((v.1 - u.1, v.2 - u.2) ∈ directions))

/-- A start-to-goal path of walkable cells in the grid, moving one
8-connected step at a time. -/
def ValidPath (g : Grid) (start goal : Cell) (p : List Cell) : Prop :=
  p ≠ [] ∧ p.head? = some start ∧ p.getLast? = some goal ∧
  (∀ x ∈ p, g.is_walkable x.1 x.2 = true) ∧
  p.Chain' stepRel

/-- A kernel-reducible decision procedure for `Chain' stepRel`. -/
def decChainStep : (l : List Cell) → Decidable (List.Chain' stepRel l)
  | [] => isTrue List.chain'_nil
  | [a] => isTrue (List.chain'_singleton a)
  | a :: b :: t =>
    haveI := decChainStep (b :: t)
    decidable_of_iff (stepRel a b ∧ List.Chain' stepRel (b :: t)) List.chain'_cons.symm

instance (g : Grid) (start goal : Cell) (p : List Cell) :
    Decidable (ValidPath g start goal p) :=
  haveI := decChainStep p
  inferInstanceAs (Decidable (p ≠ [] ∧ p.head? = some start ∧ p.getLast? = some goal ∧
    (∀ x ∈ p, g.is_walkable x.1 x.2 = true) ∧ p.Chain' stepRel))

/-! ### Breadth-first search (`bfs` in `algorithms/search.py`)

The generator is a state machine: `bfsStep` is the body of one `while`
iteration, `bfsRun` iterates it.  `done` records that the generator has
returned (reaching a terminal yield); further steps are the identity. -/

/-- The mutable state of one `bfs` run: the FIFO queue, the `came_from`
dict, the visit-ordered `explored` list, and the terminal outcome. -/
structure BfsState where
  queue : List Cell
  cf : CF
  explored : List Cell
  found : Bool
  done : Bool
  path : List Cell

/-- The neighbor loop of `bfs`: for each walkable neighbor of `current`
not yet in `came_from`, record its predecessor and enqueue it (the dict
is consulted and extended sequentially, as in the source). -/
def bfsExpand (g : Grid) (current : Cell) (queue : List Cell) (cf : CF) :
    List Cell × CF :=
  (get_neighbors_clockwise current.1 current.2 g).foldl
    (fun qc n =>
      if n ∈ cfKeys qc.2 then qc
      else (qc.1 ++ [n], qc.2 ++ [(n, some current)]))
    (queue, cf)

/-- One iteration of the `bfs` loop: dequeue, mark explored; if it is the
goal, reconstruct and stop (`reconstruct_path` is given enough fuel for
any chain over the dict); otherwise enqueue fresh neighbors.  An empty
queue terminates with no path. -/
def bfsStep (g : Grid) (start goal : Cell) (st : BfsState) : BfsState :=
  if st.done then st
  else
    match st.queue with
    | [] => { st with done := true }
    | current :: rest =>
      if current = goal then
        { st with queue := rest, explored := st.explored ++ [current],
                  found := true, done := true,
                  path := (reconstruct_path (cfGet st.cf) start goal (st.cf.length + 1)).getD [] }
      else
        { st with queue := (bfsExpand g current rest st.cf).1,
                  cf := (bfsExpand g current rest st.cf).2,
                  explored := st.explored ++ [current] }

/-- The initial `bfs` state: queue `[start]`, `came_from = {start: None}`. -/
def bfsInit (start : Cell) : BfsState :=
  ⟨[start], [(start, none)], [], false, false, []⟩

/-- Run `bfs` for `fuel` loop iterations. -/
def bfsRun (g : Grid) (start goal : Cell) : Nat → BfsState
  | 0 => bfsInit start
  | fuel + 1 => bfsStep g start goal (bfsRun g start goal fuel)

/-! ### Depth-first search (`dfs` in `algorithms/search.py`)

The stack top is the list head (Python pushes and pops at the list end;
pushing `reversed(neighbors)` there equals prepending the filtered
neighbor list in clockwise order).  `pushLog` is ghost state recording
every cell ever pushed, in push order, to state the claims about
duplicate pushes; it does not influence the computation. -/

/-- The mutable state of one `dfs` run, plus the ghost `pushLog`. -/
structure DfsState where
  stack : List Cell
  cf : CF
  explored : List Cell
  found : Bool
  done : Bool
  path : List Cell
  pushLog : List Cell

/-- The neighbor loop of `dfs`: walk `reversed(neighbors)` pushing each
cell not yet in `came_from`; with the stack top at the head this prepends
the fresh neighbors in clockwise order.  Returns the new stack, the new
dict, and the cells pushed (in push order, i.e. reversed). -/
def dfsExpand (g : Grid) (current : Cell) (stack : List Cell) (cf : CF) :
    List Cell × CF × List Cell :=
  (get_neighbors_clockwise current.1 current.2 g).reverse.foldl
    (fun sc n =>
      if n ∈ cfKeys sc.2.1 then sc
      else (n :: sc.1, sc.2.1 ++ [(n, some current)], sc.2.2 ++ [n]))
    (stack, cf, [])

/-- One iteration of the `dfs` loop: pop; if already explored, skip with
no other state change; else mark explored, stop at the goal, otherwise
push the unseen neighbors. -/
def dfsStep (g : Grid) (start goal : Cell) (st : DfsState) : DfsState :=
  if st.done then st
  else
    match st.stack with
    | [] => { st with done := true }
    | current :: rest =>
      if current ∈ st.explored then { st with stack := rest }
      else
        if current = goal then
          { st with stack := rest, explored := st.explored ++ [current],
                    found := true, done := true,
                    path := (reconstruct_path (cfGet st.cf) start goal (st.cf.length + 1)).getD [] }
        else
          { st with stack := (dfsExpand g current rest st.cf).1,
                    cf := (dfsExpand g current rest st.cf).2.1,
                    explored := st.explored ++ [current],
                    pushLog := st.pushLog ++ (dfsExpand g current rest st.cf).2.2 }

/-- The initial `dfs` state: stack `[start]`, `came_from = {start: None}`;
the initial seeding counts as the first push of `start`. -/
def dfsInit (start : Cell) : DfsState :=
  ⟨[start], [(start, none)], [], false, false, [], [start]⟩

/-- Run `dfs` for `fuel` loop iterations. -/
def dfsRun (g : Grid) (start goal : Cell) : Nat → DfsState
  | 0 => dfsInit start
  | fuel + 1 => dfsStep g start goal (dfsRun g start goal fuel)

/-! ### Depth-limited search (`dls` in `algorithms/search.py`)

`_dls_recursive` is embedded as structural recursion on the remaining
depth, threading the mutated state (`came_from`, the `path_set` set, the
`explored` and display `frontier` lists, the `found` flag).  `path_set`
is updated exactly as in the source (`add` before recursing, `discard`
on backtrack) but — as in the source — it is never consulted. -/

/-- Python `set.add`. -/
def setAdd (s : List Cell) (x : Cell) : List Cell :=
  if x ∈ s then s else s ++ [x]

/-- Python `set.discard`. -/
def setDiscard (s : List Cell) (x : Cell) : List Cell :=
  s.filter (fun y => decide (y ≠ x))

/-- The mutable state shared by all levels of `_dls_recursive`. -/
structure DlsState where
  cf : CF
  pathSet : List Cell
  explored : List Cell
  frontier : List Cell
  found : Bool

/-- The neighbor loop of `_dls_recursive`: for each neighbor not yet in
`came_from`, record the predecessor, add it to `path_set`, recurse one
level deeper (the `visit` parameter is the next-depth recursion), return
at once when found, else discard it from `path_set` and continue.  Note
the filter consults `came_from`, not `path_set`. -/
def dlsNbrsGo (g : Grid) (goal node : Cell) (visit : Cell → DlsState → DlsState) :
    List Cell → DlsState → DlsState
  | [], st => st
  | n :: rest, st =>
    if n ∈ cfKeys st.cf then dlsNbrsGo g goal node visit rest st
    else
      let st1 := { st with cf := st.cf ++ [(n, some node)],
                           pathSet := setAdd st.pathSet n }
      let st2 := visit n st1
      if st2.found then st2
      else dlsNbrsGo g goal node visit rest { st2 with pathSet := setDiscard st2.pathSet n }

/-- One call `_dls_recursive(node, depth, path_set, came_from)`: record
the visit and the display frontier, succeed on the goal, stop on depth 0,
otherwise iterate over the neighbors one depth lower. -/
def dlsVisit (g : Grid) (goal : Cell) : Nat → Cell → DlsState → DlsState
  | 0, node, st =>
    let st := { st with
      explored := st.explored ++ [node],
      frontier := (get_neighbors_clockwise node.1 node.2 g).filter
        (fun n => decide (n ∉ cfKeys st.cf)) }
    if node = goal then { st with found := true } else st
  | depth + 1, node, st =>
    let st := { st with
      explored := st.explored ++ [node],
      frontier := (get_neighbors_clockwise node.1 node.2 g).filter
        (fun n => decide (n ∉ cfKeys st.cf)) }
    if node = goal then { st with found := true }
    else dlsNbrsGo g goal node (dlsVisit g goal depth)
      (get_neighbors_clockwise node.1 node.2 g) st

/-- `dls(grid, start, goal, depth_limit)` (default limit 15 in the
source): run the recursion from `start`; on success the path is
reconstructed from the `came_from` map (which no longer changes once
`found` is set). -/
def dls (g : Grid) (start goal : Cell) (depth_limit : Nat) : DlsState × List Cell :=
  let st := dlsVisit g goal depth_limit start ⟨[(start, none)], [start], [], [], false⟩
  (st, if st.found
       then (reconstruct_path (cfGet st.cf) start goal (st.cf.length + 1)).getD []
       else [])

/-! ### Iterative deepening (`iddfs` in `algorithms/search.py`)

One depth-bound attempt (the inner `_dls` generator for a single `limit`)
is embedded below; `snaps` records every `yield`ed snapshot
`(all_explored, frontier, path)`.  The source line
`frontier.discard(neighbor) if hasattr(frontier, 'discard') else None`
is a no-op — `frontier` is a plain list and has no `discard` — so the
embedding performs no removal there. -/

/-- The mutable state of one depth-bound attempt of `iddfs`. -/
structure IddfsState where
  cf : CF
  explored : List Cell
  allExplored : List Cell
  frontier : List Cell
  found : Bool
  snaps : List (List Cell × List Cell × List Cell)

/-- The neighbor loop of the inner `_dls` of `iddfs`: record the
predecessor, append the neighbor to the display frontier, yield, recurse
one depth lower (the `visit` parameter); on backtrack the attempted
`frontier.discard(neighbor)` does nothing (a plain list has no
`discard`), so the state passes through unchanged. -/
def iddfsNbrsGo (g : Grid) (start goal node : Cell)
    (visit : Cell → IddfsState → IddfsState) :
    List Cell → IddfsState → IddfsState
  | [], st => st
  | n :: rest, st =>
    if n ∈ cfKeys st.cf then iddfsNbrsGo g start goal node visit rest st
    else
      let st1 := { st with cf := st.cf ++ [(n, some node)],
                           frontier := st.frontier ++ [n] }
      let st1 := { st1 with snaps := st1.snaps ++ [(st1.allExplored, st1.frontier, [])] }
      let st2 := visit n st1
      if st2.found then st2
      else iddfsNbrsGo g start goal node visit rest st2

/-- One call of the inner `_dls(node, depth, came_from)` of `iddfs`. -/
def iddfsVisit (g : Grid) (start goal : Cell) : Nat → Cell → IddfsState → IddfsState
  | 0, node, st =>
    let st := { st with
      explored := st.explored ++ [node],
      allExplored := st.allExplored ++ [node] }
    if node = goal then
      let path := (reconstruct_path (cfGet st.cf) start goal (st.cf.length + 1)).getD []
      { st with found := true, snaps := st.snaps ++ [(st.allExplored, [], path)] }
    else { st with snaps := st.snaps ++ [(st.allExplored, st.frontier, [])] }
  | depth + 1, node, st =>
    let st := { st with
      explored := st.explored ++ [node],
      allExplored := st.allExplored ++ [node] }
    if node = goal then
      let path := (reconstruct_path (cfGet st.cf) start goal (st.cf.length + 1)).getD []
      { st with found := true, snaps := st.snaps ++ [(st.allExplored, [], path)] }
    else iddfsNbrsGo g start goal node (iddfsVisit g start goal depth)
      (get_neighbors_clockwise node.1 node.2 g) st

/-- A single depth-bound attempt of `iddfs` at bound `limit`: fresh
per-attempt `explored`, `frontier` and `came_from = {start: None}`, with
the cross-attempt `all_explored` history carried in. -/
def iddfsAttempt (g : Grid) (start goal : Cell) (limit : Nat)
    (allExplored : List Cell) : IddfsState :=
  iddfsVisit g start goal limit start ⟨[(start, none)], [], allExplored, [], false, []⟩

/-! ### Bidirectional search (`bidirectional` in `algorithms/search.py`) -/

/-- `_intersect()`: the first cell of `fwd_visited` (in insertion order)
that is also in `bwd_visited`. -/
def intersectVisited (fv bv : CF) : Option Cell :=
  (cfKeys fv).find? (fun x => decide (x ∈ cfKeys bv))

/-- The state of one `bidirectional` run: the two FIFO queues, the two
visited/predecessor maps, the two explored orders, and the meeting point
once found.  `done` marks that the `while` loop has exited. -/
structure BidirState where
  fq : List Cell
  fv : CF
  bq : List Cell
  bv : CF
  exploredFwd : List Cell
  exploredBwd : List Cell
  meeting : Option Cell
  done : Bool

/-- One iteration of the `bidirectional` loop: a forward expansion step
(when the forward queue is non-empty), breaking as soon as `_intersect`
finds a meeting cell after the pop, then the analogous backward step.
The neighbor loop of each side is the same as BFS's (`bfsExpand`). -/
def bidirStep (g : Grid) (st : BidirState) : BidirState :=
  if st.done then st
  else if st.fq = [] ∧ st.bq = [] then { st with done := true }
  else
    let stF :=
      match st.fq with
      | [] => st
      | current :: rest =>
        let st1 := { st with fq := rest, exploredFwd := st.exploredFwd ++ [current] }
        match intersectVisited st1.fv st1.bv with
        | some m => { st1 with meeting := some m, done := true }
        | none =>
          let qv := bfsExpand g current st1.fq st1.fv
          { st1 with fq := qv.1, fv := qv.2 }
    if stF.done then stF
    else
      match stF.bq with
      | [] => stF
      | current :: rest =>
        let st1 := { stF with bq := rest, exploredBwd := stF.exploredBwd ++ [current] }
        match intersectVisited st1.fv st1.bv with
        | some m => { st1 with meeting := some m, done := true }
        | none =>
          let qv := bfsExpand g current st1.bq st1.bv
          { st1 with bq := qv.1, bv := qv.2 }

/-- The combined-path reconstruction of `bidirectional`: the forward
predecessor chain from the meeting point, reversed (start → meeting),
concatenated with the backward predecessor chain starting at the meeting
point's backward predecessor (meeting → goal, excluding the meeting
point).  Both walks carry enough fuel for any chain over their maps. -/
def bidirPath (fv bv : CF) (meet : Cell) : List Cell :=
  let pathFwd := ((walkBack (cfGet fv) (fv.length + 1) meet).getD []).reverse
  let pathBwd :=
    match cfGet bv meet with
    | none => []
    | some u => (walkBack (cfGet bv) (bv.length + 1) u).getD []
  pathFwd ++ pathBwd

/-- The initial `bidirectional` state: forward BFS seeded at `start`,
backward BFS seeded at `goal`. -/
def bidirInit (start goal : Cell) : BidirState :=
  ⟨[start], [(start, none)], [goal], [(goal, none)], [], [], none, false⟩

/-- Run the `bidirectional` loop for `fuel` iterations. -/
def bidirRun (g : Grid) (start goal : Cell) : Nat → BidirState
  | 0 => bidirInit start goal
  | fuel + 1 => bidirStep g (bidirRun g start goal fuel)

/-- `bidirectional(grid, start, goal)`: the final state and the emitted
path (empty when no meeting point was found). -/
def bidirectional (g : Grid) (start goal : Cell) (fuel : Nat) : BidirState × List Cell :=
  let st := bidirRun g start goal fuel
  (st, match st.meeting with
       | some m => bidirPath st.fv st.bv m
       | none => [])

/-! ### Uniform-cost search (`ucs` in `algorithms/search.py`)

The Python float arithmetic on costs (literals `1.0` and `1.414`, float
addition and comparison) is idealized as exact arithmetic on the
rationals those literals denote.  Every cost the algorithm ever forms is
a sum of the two step costs, i.e. an integer multiple of `1/500`
(`1.0 = 500/500`, `1.414 = 707/500`), so costs are embedded as exact
integers in units of `1/500`: cardinal moves cost `500`, diagonal moves
cost `707`.  Addition, equality and order of such sums agree with the
exact rational ones (see `pathCost_ratio`).  The `heapq` priority queue
is embedded as a list from which `heappop` removes the least entry in
the lexicographic `(cost, cell)` order — the order `heapq` uses on
`(float, tuple)` entries; per cell the pushed costs strictly decrease,
so no two equal entries ever coexist and the popped entry is uniquely
determined. -/

/-- `step_cost(a, b)`: `1.414` for a diagonal move, `1.0` otherwise, in
units of `1/500` (`707` resp. `500`). -/
def step_cost (a b : Cell) : ℤ :=
  if a.1 ≠ b.1 ∧ a.2 ≠ b.2 then 707 else 500

/-- Strict lexicographic order on heap entries `(cost, (row, col))`. -/
def entryLt (a b : ℤ × Cell) : Bool :=
  decide (a.1 < b.1) ||
    (decide (a.1 = b.1) &&
      (decide (a.2.1 < b.2.1) || (decide (a.2.1 = b.2.1) && decide (a.2.2 < b.2.2))))

/-- The least entry of the heap (leftmost among equals). -/
def heapMin (h : List (ℤ × Cell)) : Option (ℤ × Cell) :=
  h.foldl
    (fun acc e =>
      match acc with
      | none => some e
      | some m => if entryLt e m then some e else some m)
    none

/-- Remove the first occurrence of an entry from the heap list. -/
def heapRemove : List (ℤ × Cell) → ℤ × Cell → List (ℤ × Cell)
  | [], _ => []
  | e :: t, x => if e = x then t else e :: heapRemove t x

/-- `heapq.heappop`: the least entry and the remaining heap. -/
def heapPop (h : List (ℤ × Cell)) : Option ((ℤ × Cell) × List (ℤ × Cell)) :=
  (heapMin h).map (fun m => (m, heapRemove h m))

/-- Association-list store for `cost_so_far` (dict assignment replaces
the value of an existing key). -/
def costUpdate : List (Cell × ℤ) → Cell → ℤ → List (Cell × ℤ)
  | [], k, v => [(k, v)]
  | e :: t, k, v => if e.1 = k then (k, v) :: t else e :: costUpdate t k v

/-- `cost_so_far` lookup (`cost_so_far[current]`; the key is always
present when the source reads it, `0` is a dummy default). -/
def costLookup (l : List (Cell × ℤ)) (k : Cell) : ℤ :=
  ((l.find? (fun e => decide (e.1 = k))).map (fun e => e.2)).getD 0

/-- `came_from[neighbor] = current` in `ucs` replaces the value of an
existing key (unlike BFS/DFS, `ucs` re-links on every relaxation). -/
def cfUpdate : CF → Cell → Option Cell → CF
  | [], k, v => [(k, v)]
  | e :: t, k, v => if e.1 = k then (k, v) :: t else e :: cfUpdate t k v

/-- The mutable state of one `ucs` run. -/
structure UcsState where
  heap : List (ℤ × Cell)
  cf : CF
  cost : List (Cell × ℤ)
  explored : List Cell
  frontierSet : List Cell
  found : Bool
  done : Bool
  path : List Cell

/-- The neighbor loop of `ucs`: relax every walkable neighbor whose new
cost is fresh or a strict improvement, re-linking its predecessor and
pushing the new entry (stale entries stay in the heap). -/
def ucsExpand (g : Grid) (current : Cell) (st : UcsState) : UcsState :=
  (get_neighbors_clockwise current.1 current.2 g).foldl
    (fun s n =>
      let new_cost := costLookup s.cost current + step_cost current n
      if n ∉ (s.cost.map Prod.fst) ∨ new_cost < costLookup s.cost n then
        { s with
          cost := costUpdate s.cost n new_cost,
          cf := cfUpdate s.cf n (some current),
          heap := s.heap ++ [(new_cost, n)],
          frontierSet := setAdd s.frontierSet n }
      else s)
    st

/-- One iteration of the `ucs` loop: pop the cheapest entry, skip it when
already explored, stop at the goal, otherwise relax the neighbors. -/
def ucsStep (g : Grid) (start goal : Cell) (st : UcsState) : UcsState :=
  if st.done then st
  else
    match heapPop st.heap with
    | none => { st with done := true }
    | some (e, rest) =>
      let current := e.2
      let st1 := { st with heap := rest, frontierSet := setDiscard st.frontierSet current }
      if current ∈ st1.explored then st1
      else
        let st2 := { st1 with explored := st1.explored ++ [current] }
        if current = goal then
          { st2 with found := true, done := true,
                     path := (reconstruct_path (cfGet st2.cf) start goal
                       (st2.cf.length + 1)).getD [] }
        else ucsExpand g current st2

/-- The initial `ucs` state: heap `[(0.0, start)]`,
`came_from = {start: None}`, `cost_so_far = {start: 0.0}`. -/
def ucsInit (start : Cell) : UcsState :=
  ⟨[(0, start)], [(start, none)], [(start, 0)], [], [start], false, false, []⟩

/-- Run `ucs` for `fuel` loop iterations. -/
def ucsRun (g : Grid) (start goal : Cell) : Nat → UcsState
  | 0 => ucsInit start
  | fuel + 1 => ucsStep g start goal (ucsRun g start goal fuel)

/-! ### Cost measures on paths

`pathCost` composes the implemented `step_cost` along a path;
`countCardinal`/`countDiagonal` count the two move kinds, so the cost
specified by the spec — cardinal `1`, diagonal `√2` — of a path `p` is
`countCardinal p + countDiagonal p * √2`. -/

/-- Accumulated implemented cost of a path (`1`, resp. `1.414`, per
move, in units of `1/500`). -/
def pathCost : List Cell → ℤ
  | a :: b :: rest => step_cost a b + pathCost (b :: rest)
  | _ => 0

/-- The number of diagonal moves of a path. -/
def countDiagonal : List Cell → Nat
  | a :: b :: rest => (if a.1 ≠ b.1 ∧ a.2 ≠ b.2 then 1 else 0) + countDiagonal (b :: rest)
  | _ => 0

/-- The number of cardinal moves of a path. -/
def countCardinal : List Cell → Nat
  | a :: b :: rest => (if a.1 ≠ b.1 ∧ a.2 ≠ b.2 then 0 else 1) + countCardinal (b :: rest)
  | _ => 0

/-! ### List-extension relation (used to state the append-only claims) -/

/-- `listExtends a b`: `b` is `a` with zero or more elements appended. -/
def listExtends {α : Type} (a b : List α) : Prop :=
  ∃ t, b = a ++ t

/-! ### Concrete grids and inputs used as witnesses and failing inputs -/

/-- A fully open 2×2 grid. -/
def grid2 : Grid := ⟨2, 2, fun _ _ => EMPTY, none, none⟩

/-- A fully open 3×3 grid (the depth-limited-search failing input). -/
def grid3 : Grid := ⟨3, 3, fun _ _ => EMPTY, some (0, 0), some (2, 0)⟩

/-- Corridor A of the uniform-cost failing input: down column 0 to
`(100, 0)`, then right along row 100 to `(100, 42)` — 142 cardinal moves
with a single bend whose corner can be cut by one diagonal move. -/
def corridorA (r c : Int) : Bool :=
  decide (c = 0 ∧ 0 ≤ r ∧ r ≤ 100) || decide (r = 100 ∧ 0 ≤ c ∧ c ≤ 42)

/-- Corridor B of the uniform-cost failing input: diagonally down-right
to `(71, 71)`, then diagonally down-left to `(100, 42)` — 100 diagonal
moves. -/
def corridorB (r c : Int) : Bool :=
  decide (0 ≤ r ∧ r ≤ 71 ∧ c = r) || decide (72 ≤ r ∧ r ≤ 100 ∧ r + c = 142)

/-- A 101×72 grid whose walkable cells are exactly corridors A and B,
which meet only at `(0,0)` and `(100,42)`. -/
def gridC2 : Grid :=
  ⟨101, 72, fun r c => if corridorA r c || corridorB r c then EMPTY else WALL,
   some (0, 0), some (100, 42)⟩

/-- The best traversal of corridor A: down to `(99,0)`, one diagonal
corner cut to `(100,1)`, right to `(100,42)` — 140 cardinal moves and 1
diagonal move. -/
def pathA : List Cell :=
  ((List.range 100).map (fun i => ((i : Int), (0 : Int)))) ++
    ((List.range 42).map (fun j => ((100 : Int), (j : Int) + 1)))

/-- The corridor-B path: 101 cells, 100 diagonal moves. -/
def pathB : List Cell :=
  ((List.range 72).map (fun i => ((i : Int), (i : Int)))) ++
    ((List.range 29).map (fun k => ((72 : Int) + k, (70 : Int) - k)))

/-- An example `get` function (empty predecessor map) for witnesses. -/
def exGet : Cell → Option Cell := fun _ => none

/-- An example predecessor chain `(1,1) ← (0,0)` for witnesses. -/
def exGet2 : Cell → Option Cell := fun x => if x = (1, 1) then some (0, 0) else none

/-- The fresh neighbors of `current`: those not yet in the dict, in
clockwise order. -/
def freshNbrs (g : Grid) (current : Cell) (cf : CF) : List Cell :=
  (get_neighbors_clockwise current.1 current.2 g).filter
    (fun n => decide (n ∉ cfKeys cf))

/-- The ghost invariant of a running BFS: `dep` assigns each discovered
cell its BFS layer.  The queue is depth-sorted with all discovered depths
within one of the head's; popped cells are fully expanded with tight
depths; `came_from` links each discovered cell to a discovered
predecessor one layer below. -/
structure BfsInv (g : Grid) (start : Cell) (queue : List Cell) (cf : CF)
    (dep : Cell → Nat) : Prop where
  keys_nodup : (cfKeys cf).Nodup
  queue_nodup : queue.Nodup
  queue_sub : ∀ x ∈ queue, x ∈ cfKeys cf
  sorted : queue.Pairwise (fun a b => dep a ≤ dep b)
  bound : ∀ h, queue.head? = some h → ∀ y ∈ cfKeys cf, dep y ≤ dep h + 1
  expanded : ∀ u ∈ cfKeys cf, u ∉ queue →
    ∀ n ∈ get_neighbors_clockwise u.1 u.2 g, n ∈ cfKeys cf ∧ dep n ≤ dep u + 1
  chain : ∀ e ∈ cf, (e.2 = none → e.1 = start) ∧
    (∀ u, e.2 = some u → u ∈ cfKeys cf ∧ dep e.1 = dep u + 1 ∧
      e.1 ∈ get_neighbors_clockwise u.1 u.2 g)
  start_mem : cfLookup cf start = some none
  dep_start : dep start = 0

/-- A predecessor map whose backward pointers strictly decrease some
rank — the acyclicity certificate of claim C9. -/
def cfRanked (cf : CF) : Prop :=
  ∃ rank : Cell → Nat, ∀ x u, cfGet cf x = some u → rank u < rank x

/-- Everything the BFS run maintains: the layer invariant while running,
an acyclic predecessor map throughout, and — once a path is found —
its optimality among all valid paths. -/
def BfsGood (g : Grid) (start goal : Cell) (st : BfsState) : Prop :=
  (st.done = false → ∃ dep, BfsInv g start st.queue st.cf dep) ∧
  cfRanked st.cf ∧
  (st.found = true → st.path ≠ [] →
    ∀ q, ValidPath g start goal q → st.path.length ≤ q.length)

/-- The DFS run invariant: cells enter `came_from` exactly when pushed,
so the push log and the stack never repeat, the stack stays disjoint
from `explored`, and every `came_from` edge is a real neighbor edge. -/
structure DfsInv (g : Grid) (start : Cell) (st : DfsState) : Prop where
  keys_nodup : (cfKeys st.cf).Nodup
  stack_sub : ∀ x ∈ st.stack, x ∈ cfKeys st.cf
  explored_sub : ∀ x ∈ st.explored, x ∈ cfKeys st.cf
  log_sub : ∀ x ∈ st.pushLog, x ∈ cfKeys st.cf
  log_nodup : st.pushLog.Nodup
  se_nodup : (st.explored ++ st.stack).Nodup
  chainE : ∀ e ∈ st.cf, (e.2 = none → e.1 = start) ∧
    (∀ u, e.2 = some u → u ∈ cfKeys st.cf ∧
      e.1 ∈ get_neighbors_clockwise u.1 u.2 g)

/-- The DFS run invariant plus: a found non-empty path is a valid
start-to-goal path (provided the start cell itself is walkable). -/
def DfsGood (g : Grid) (start goal : Cell) (st : DfsState) : Prop :=
  DfsInv g start st ∧
  (st.found = true → st.path ≠ [] → g.is_walkable start.1 start.2 = true →
    ValidPath g start goal st.path)

/-- The chain invariant of a running attempt: every emitted frontier
extends the previous one, and the current frontier extends the last
emitted one. -/
def FrontChain (st : IddfsState) : Prop :=
  List.Chain' listExtends (st.snaps.map (fun t => t.2.1) ++ [st.frontier])

/-- The chain property of a finished (found) attempt: every frontier
emitted before the terminal success snapshot extends the previous one. -/
def FrontChainFound (st : IddfsState) : Prop :=
  List.Chain' listExtends (st.snaps.dropLast.map (fun t => t.2.1))

/-- A size-bounded acyclicity certificate for a predecessor map: a rank
strictly decreasing along the backward pointers and, on every key,
smaller than the number of entries.  The bound makes the map's own
length sufficient walk fuel. -/
def cfRankedB (cf : CF) : Prop :=
  ∃ rank : Cell → Nat, (∀ x u, cfGet cf x = some u → rank u < rank x) ∧
    (∀ x ∈ cfKeys cf, rank x < cf.length)

/-- The per-side invariant of `bidirectional`: one BFS half's visited
map `cf` (rooted at `root`, which is `start` forward and `goal`
backward) together with its queue.  Only the root stores `None`, every
stored predecessor is itself a key, the queue holds keys only, and the
pointers are acyclic with length-bounded rank. -/
structure SideInv (root : Cell) (cf : CF) (q : List Cell) : Prop where
  keys_nodup : (cfKeys cf).Nodup
  q_sub : ∀ x ∈ q, x ∈ cfKeys cf
  root_none : cfLookup cf root = some none
  chain : ∀ e ∈ cf, (e.2 = none → e.1 = root) ∧
    (∀ u, e.2 = some u → u ∈ cfKeys cf)
  ranked : cfRankedB cf

/-- The whole-run invariant of `bidirectional`: both sides satisfy
`SideInv` and a recorded meeting point is a key of both visited maps. -/
def BidirInv (start goal : Cell) (st : BidirState) : Prop :=
  SideInv start st.fv st.fq ∧ SideInv goal st.bv st.bq ∧
  (∀ m, st.meeting = some m → m ∈ cfKeys st.fv ∧ m ∈ cfKeys st.bv)

/-!
## Theorems

All definitions are above; everything below is proof.
-/

/-! ### Neighbor ordering (claim C3) -/

theorem directions_nodup : directions.Nodup := by decide

theorem neighbors_mem_iff (g : Grid) (r c : Int) (p : Cell) :
    p ∈ get_neighbors_clockwise r c g ↔
      (∃ d ∈ directions, p = (r + d.1, c + d.2)) ∧
        g.is_valid p.1 p.2 = true ∧ g.is_walkable p.1 p.2 = true := by
  unfold get_neighbors_clockwise
  rw [List.mem_filter, List.mem_map]
  constructor
  · rintro ⟨⟨d, hd, rfl⟩, hcond⟩
    rw [Bool.and_eq_true] at hcond
    exact ⟨⟨d, hd, rfl⟩, hcond.1, hcond.2⟩
  · rintro ⟨⟨d, hd, rfl⟩, hv, hw⟩
    exact ⟨⟨d, hd, rfl⟩, by rw [Bool.and_eq_true]; exact ⟨hv, hw⟩⟩

theorem offsets_injective (r c : Int) :
    Function.Injective (fun d : Int × Int => (r + d.1, c + d.2)) := by
  rintro ⟨a1, a2⟩ ⟨b1, b2⟩ h
  simp only [Prod.mk.injEq] at h
  have h1 : a1 = b1 := by omega
  have h2 : a2 = b2 := by omega
  simp [h1, h2]

/-- Claim C3: for every grid and cell `(r, c)`,
`get_neighbors_clockwise r c grid` returns exactly those of the 8
adjacent cells (in the fixed priority order Up, Right, Down, Down-Right,
Down-Left, Left, Up-Left, Up-Right) that are in bounds and walkable: its
members are precisely the in-bounds walkable priority-offsets of
`(r, c)`, it is a subsequence of the full priority list (no reordering),
and it has no duplicates. -/
theorem get_neighbors_clockwise_spec (g : Grid) (r c : Int) :
    (∀ p : Cell, p ∈ get_neighbors_clockwise r c g ↔
      (∃ d ∈ directions, p = (r + d.1, c + d.2)) ∧
        g.is_valid p.1 p.2 = true ∧ g.is_walkable p.1 p.2 = true) ∧
    List.Sublist (get_neighbors_clockwise r c g)
      (directions.map (fun d => (r + d.1, c + d.2))) ∧
    (get_neighbors_clockwise r c g).Nodup := by
  refine ⟨neighbors_mem_iff g r c, List.filter_sublist _, ?_⟩
  exact (directions_nodup.map (offsets_injective r c)).filter _

/-! ### Path reconstruction (claims C7 and C9) -/

theorem walkBack_zero (get : Cell → Option Cell) (x : Cell) :
    walkBack get 0 x = none := rfl

theorem walkBack_succ_none {get : Cell → Option Cell} {x : Cell} (fuel : Nat)
    (hg : get x = none) : walkBack get (fuel + 1) x = some [x] := by
  show (match get x with
    | none => some [x]
    | some nxt => (walkBack get fuel nxt).map (fun rest => x :: rest)) = some [x]
  rw [hg]

theorem walkBack_succ_some {get : Cell → Option Cell} {x y : Cell} (fuel : Nat)
    (hg : get x = some y) :
    walkBack get (fuel + 1) x = (walkBack get fuel y).map (fun rest => x :: rest) := by
  show (match get x with
    | none => some [x]
    | some nxt => (walkBack get fuel nxt).map (fun rest => x :: rest)) =
    (walkBack get fuel y).map (fun rest => x :: rest)
  rw [hg]

theorem walkBack_ne_nil {get : Cell → Option Cell} {fuel : Nat} {x : Cell}
    {w : List Cell} (h : walkBack get fuel x = some w) : w ≠ [] := by
  match fuel with
  | 0 => rw [walkBack_zero] at h; cases h
  | fuel + 1 =>
    match hg : get x with
    | none =>
      rw [walkBack_succ_none fuel hg] at h
      cases h
      simp
    | some nxt =>
      rw [walkBack_succ_some fuel hg, Option.map_eq_some'] at h
      obtain ⟨a, _, ha⟩ := h
      simp [← ha]

/-- Claim C7: whenever `reconstruct_path` returns (the backward walk
terminated), a non-empty result starts at `start`, and if the backward
walk from `goal` never meets `start` the result is the empty path. -/
theorem reconstruct_path_spec (get : Cell → Option Cell) (start goal : Cell)
    (fuel : Nat) (p : List Cell) (h : reconstruct_path get start goal fuel = some p) :
    (p ≠ [] → p.head? = some start) ∧
    (∀ w, walkBack get fuel goal = some w → start ∉ w → p = []) := by
  unfold reconstruct_path at h
  match hw : walkBack get fuel goal with
  | none => rw [hw] at h; cases h
  | some w =>
    rw [hw, Option.map_some', Option.some.injEq] at h
    by_cases hc : w.reverse.head? = some start
    · rw [if_pos hc] at h
      refine ⟨fun _ => h ▸ hc, ?_⟩
      rintro w' hw' hs
      cases hw'
      exfalso
      have hmem : start ∈ w.reverse := List.mem_of_mem_head? hc
      exact hs (List.mem_reverse.mp hmem)
    · rw [if_neg hc] at h
      exact ⟨fun hp => absurd h.symm hp, fun _ _ _ => h.symm⟩

/-- Witness for C7 at a concrete input: the empty predecessor map has no
route from `(0,0)` back to `(1,1)`, and indeed the result is empty. -/
theorem reconstruct_path_spec_witness :
    (([] : List Cell) ≠ [] → ([] : List Cell).head? = some (1, 1)) ∧
    (∀ w, walkBack exGet 1 (0, 0) = some w → (1, 1) ∉ w → ([] : List Cell) = []) :=
  reconstruct_path_spec exGet (1, 1) (0, 0) 1 [] (by rfl)

/-- Backward walks over a rank-decreasing predecessor map terminate:
with fuel exceeding the rank of the starting cell the walk returns. -/
theorem walkBack_total (get : Cell → Option Cell) (rank : Cell → Nat)
    (hrank : ∀ x y, get x = some y → rank y < rank x) :
    ∀ (fuel : Nat) (x : Cell), rank x < fuel → ∃ w, walkBack get fuel x = some w := by
  intro fuel
  induction fuel with
  | zero => intro x hx; omega
  | succ n ih =>
    intro x _
    match hg : get x with
    | none => exact ⟨[x], walkBack_succ_none n hg⟩
    | some y =>
      have hy : rank y < n := by
        have h1 := hrank x y hg
        omega
      obtain ⟨w, hw⟩ := ih y hy
      exact ⟨x :: w, by rw [walkBack_succ_some n hg, hw]; rfl⟩

/-! ### Grid setters (claim C10) -/

/-- Claim C10: `set_start` changes only the previously cached start cell,
the target cell, and `start_pos`; it leaves `goal_pos` (and the
dimensions) unchanged — and symmetrically `set_goal` never touches
`start_pos`.  In particular, calling `set_start` on the cell recorded as
`goal_pos` overwrites the cell with `START` (`≠ GOAL`) while `goal_pos`
still points at it. -/
theorem set_start_frame (g : Grid) (r c : Int) :
    (g.set_start r c).goal_pos = g.goal_pos ∧
    (g.set_start r c).rows = g.rows ∧
    (g.set_start r c).cols = g.cols ∧
    (g.set_start r c).start_pos = some (r, c) ∧
    (g.set_start r c).cell r c = START ∧
    (∀ r' c', ¬(r' = r ∧ c' = c) →
      (∀ p, g.start_pos = some p → ¬(r' = p.1 ∧ c' = p.2)) →
      (g.set_start r c).cell r' c' = g.cell r' c') ∧
    (g.set_goal r c).start_pos = g.start_pos ∧
    (g.goal_pos = some (r, c) →
      (g.set_start r c).goal_pos = some (r, c) ∧
      (g.set_start r c).cell r c = START ∧ START ≠ GOAL) := by
  have hgp : (g.set_start r c).goal_pos = g.goal_pos := by
    cases hs : g.start_pos <;> simp [Grid.set_start, Grid.setCell, hs]
  have hcell : (g.set_start r c).cell r c = START := by
    cases hs : g.start_pos <;> simp [Grid.set_start, Grid.setCell, hs]
  refine ⟨hgp, ?_, ?_, ?_, hcell, ?_, ?_, ?_⟩
  · cases hs : g.start_pos <;> simp [Grid.set_start, Grid.setCell, hs]
  · cases hs : g.start_pos <;> simp [Grid.set_start, Grid.setCell, hs]
  · cases hs : g.start_pos <;> simp [Grid.set_start, Grid.setCell, hs]
  · intro r' c' hne hq
    cases hs : g.start_pos with
    | none =>
      simp only [Grid.set_start, Grid.setCell, hs]
      exact if_neg hne
    | some q =>
      have hq' : ¬(r' = q.1 ∧ c' = q.2) := hq q hs
      simp only [Grid.set_start, Grid.setCell, hs]
      rw [if_neg hne, if_neg hq']
  · cases hgo : g.goal_pos <;> simp [Grid.set_goal, Grid.setCell, hgo]
  · intro hg
    exact ⟨hgp.trans hg, hcell, by decide⟩

/-- Witness for C10 at a concrete grid: `grid3` has
`goal_pos = some (2,0)`; `set_start` at `(2,0)` leaves `goal_pos`
pointing there while the cell now holds `START`. -/
theorem set_start_frame_witness :
    (grid3.set_start 2 0).goal_pos = grid3.goal_pos ∧
    (grid3.set_start 2 0).rows = grid3.rows ∧
    (grid3.set_start 2 0).cols = grid3.cols ∧
    (grid3.set_start 2 0).start_pos = some (2, 0) ∧
    (grid3.set_start 2 0).cell 2 0 = START ∧
    (∀ r' c', ¬(r' = 2 ∧ c' = 0) →
      (∀ p, grid3.start_pos = some p → ¬(r' = p.1 ∧ c' = p.2)) →
      (grid3.set_start 2 0).cell r' c' = grid3.cell r' c') ∧
    (grid3.set_goal 2 0).start_pos = grid3.start_pos ∧
    (grid3.goal_pos = some (2, 0) →
      (grid3.set_start 2 0).goal_pos = some (2, 0) ∧
      (grid3.set_start 2 0).cell 2 0 = START ∧ START ≠ GOAL) :=
  set_start_frame grid3 2 0

/-! ### The uniform-cost cost model (claim C2) -/

/-- The integer cost units denote the exact rationals of the source's
float literals: `pathCost` in units of `1/500` equals the sum of `1.0`
per cardinal move and `1.414` per diagonal move. -/
theorem pathCost_ratio :
    ∀ p : List Cell,
      (pathCost p : ℚ) = 500 * ((countCardinal p : ℚ) + 1.414 * (countDiagonal p : ℚ))
  | [] => by simp [pathCost, countCardinal, countDiagonal]
  | [a] => by simp [pathCost, countCardinal, countDiagonal]
  | a :: b :: rest => by
    have ih := pathCost_ratio (b :: rest)
    by_cases hd : a.1 ≠ b.1 ∧ a.2 ≠ b.2
    · simp only [pathCost, countCardinal, countDiagonal, step_cost, if_pos hd]
      push_cast
      rw [ih]
      ring_nf
    · simp only [pathCost, countCardinal, countDiagonal, step_cost, if_neg hd]
      push_cast
      rw [ih]
      ring_nf

/-- Claim C2 (refuted at a failing input): in `gridC2`, `pathA` and
`pathB` are both start-to-goal paths of walkable cells; the implemented
accumulated cost (1 per cardinal, 1.414 per diagonal — the quantity
`ucs` minimizes) of `pathB` is strictly below that of `pathA`, yet under
the claimed cost model (1 per cardinal, `√2` per diagonal) `pathA` is
strictly cheaper than `pathB`.  Hence minimizing the implemented cost is
not minimizing the `√2` cost. -/
theorem ucs_cost_divergence :
    ValidPath gridC2 (0, 0) (100, 42) pathA ∧
    ValidPath gridC2 (0, 0) (100, 42) pathB ∧
    pathCost pathB < pathCost pathA ∧
    (countCardinal pathA : ℝ) + (countDiagonal pathA : ℝ) * Real.sqrt 2 <
      (countCardinal pathB : ℝ) + (countDiagonal pathB : ℝ) * Real.sqrt 2 := by
  refine ⟨by decide, by decide, by decide, ?_⟩
  have hA1 : countCardinal pathA = 140 := by decide
  have hA2 : countDiagonal pathA = 1 := by decide
  have hB1 : countCardinal pathB = 0 := by decide
  have hB2 : countDiagonal pathB = 100 := by decide
  rw [hA1, hA2, hB1, hB2]
  push_cast
  have h2 : Real.sqrt 2 ^ 2 = 2 := Real.sq_sqrt (by norm_num)
  have hpos : (0 : ℝ) ≤ Real.sqrt 2 := Real.sqrt_nonneg 2
  nlinarith [h2, hpos, sq_nonneg (99 * Real.sqrt 2 - 140)]

/-! ### Association-list dictionary lemmas -/

theorem cfKeys_append (cf l : CF) : cfKeys (cf ++ l) = cfKeys cf ++ cfKeys l :=
  List.map_append _ _ _

theorem mem_cfKeys {cf : CF} {x : Cell} : x ∈ cfKeys cf ↔ ∃ v, (x, v) ∈ cf := by
  unfold cfKeys
  rw [List.mem_map]
  constructor
  · rintro ⟨⟨a, v⟩, hm, rfl⟩
    exact ⟨v, hm⟩
  · rintro ⟨v, hm⟩
    exact ⟨(x, v), hm, rfl⟩

theorem cfLookup_isSome {cf : CF} {x : Cell} :
    (cfLookup cf x).isSome ↔ x ∈ cfKeys cf := by
  unfold cfLookup cfKeys
  rw [Option.isSome_map', List.find?_isSome, List.mem_map]
  constructor
  · rintro ⟨e, he, hp⟩
    exact ⟨e, he, of_decide_eq_true hp⟩
  · rintro ⟨e, he, hp⟩
    exact ⟨e, he, decide_eq_true hp⟩

theorem cfLookup_eq_none {cf : CF} {x : Cell} (h : x ∉ cfKeys cf) :
    cfLookup cf x = none := by
  have hs := (not_congr cfLookup_isSome).mpr h
  exact Option.not_isSome_iff_eq_none.mp hs

theorem cfLookup_append_left {cf : CF} {x : Cell} (l : CF) (h : x ∈ cfKeys cf) :
    cfLookup (cf ++ l) x = cfLookup cf x := by
  have hs : (cfLookup cf x).isSome := cfLookup_isSome.mpr h
  unfold cfLookup at hs ⊢
  rw [List.find?_append]
  rw [Option.isSome_map'] at hs
  match hf : cf.find? (fun e => decide (e.1 = x)) with
  | some e => rw [hf]; rfl
  | none => rw [hf] at hs; cases hs

theorem cfLookup_append_right {cf : CF} {x : Cell} (l : CF) (h : x ∉ cfKeys cf) :
    cfLookup (cf ++ l) x = cfLookup l x := by
  unfold cfLookup
  rw [List.find?_append]
  have hf : cf.find? (fun e => decide (e.1 = x)) = none := by
    rw [List.find?_eq_none]
    intro e he hp
    exact h (mem_cfKeys.mpr ⟨e.2, by
      have : e.1 = x := of_decide_eq_true hp
      rw [← this]
      exact he⟩)
  rw [hf]
  rfl

theorem cfLookup_mem {cf : CF} {x : Cell} {v : Option Cell}
    (h : cfLookup cf x = some v) : (x, v) ∈ cf := by
  unfold cfLookup at h
  match hf : cf.find? (fun e => decide (e.1 = x)) with
  | none => rw [hf] at h; cases h
  | some e =>
    rw [hf] at h
    have hp := List.find?_some hf
    simp only [decide_eq_true_eq] at hp
    have h1 : e.1 = x := hp
    have h2 : e ∈ cf := List.mem_of_find?_eq_some hf
    have h3 : e.2 = v := by
      simp only [Option.map_some', Option.some.injEq] at h
      exact h
    have : e = (x, v) := Prod.ext h1 h3
    rw [← this]
    exact h2

theorem cfGet_mem {cf : CF} {x u : Cell} (h : cfGet cf x = some u) :
    (x, some u) ∈ cf := by
  unfold cfGet at h
  match hl : cfLookup cf x with
  | none => rw [hl] at h; cases h
  | some v =>
    rw [hl] at h
    have : v = some u := h
    rw [this] at hl
    exact cfLookup_mem hl

theorem cfGet_none_mem {cf : CF} {x : Cell} (hk : x ∈ cfKeys cf)
    (h : cfGet cf x = none) : (x, none) ∈ cf := by
  unfold cfGet at h
  match hl : cfLookup cf x with
  | none =>
    exact absurd (cfLookup_isSome.mpr hk) (by rw [hl]; exact Bool.false_ne_true)
  | some v =>
    rw [hl] at h
    have : v = none := h
    rw [this] at hl
    exact cfLookup_mem hl

/-! ### The BFS/bidirectional neighbor-loop characterization -/

theorem bfsFold_spec (g : Grid) (current : Cell) :
    ∀ (l : List Cell), l.Nodup → ∀ (queue : List Cell) (cf : CF),
      l.foldl
        (fun qc n =>
          if n ∈ cfKeys qc.2 then qc
          else (qc.1 ++ [n], qc.2 ++ [(n, some current)]))
        (queue, cf) =
      (queue ++ l.filter (fun n => decide (n ∉ cfKeys cf)),
       cf ++ (l.filter (fun n => decide (n ∉ cfKeys cf))).map
         (fun n => (n, some current))) := by
  intro l
  induction l with
  | nil => intro _ queue cf; simp
  | cons n t ih =>
    intro hnd queue cf
    have hnt : n ∉ t := (List.nodup_cons.mp hnd).1
    have htnd : t.Nodup := (List.nodup_cons.mp hnd).2
    by_cases hn : n ∈ cfKeys cf
    · rw [List.foldl_cons, if_pos hn]
      rw [ih htnd queue cf]
      have hfilter : (n :: t).filter (fun m => decide (m ∉ cfKeys cf)) =
          t.filter (fun m => decide (m ∉ cfKeys cf)) := by
        rw [List.filter_cons]
        simp [hn]
      rw [hfilter]
    · rw [List.foldl_cons, if_neg hn]
      rw [ih htnd (queue ++ [n]) (cf ++ [(n, some current)])]
      have hkeys : cfKeys (cf ++ [(n, some current)]) = cfKeys cf ++ [n] := by
        rw [cfKeys_append]; rfl
      have hfilter : t.filter (fun m => decide (m ∉ cfKeys (cf ++ [(n, some current)]))) =
          t.filter (fun m => decide (m ∉ cfKeys cf)) := by
        apply List.filter_congr
        intro m hm
        have hne : m ≠ n := fun h => hnt (h ▸ hm)
        rw [hkeys]
        simp [hne]
      have hfilter2 : (n :: t).filter (fun m => decide (m ∉ cfKeys cf)) =
          n :: t.filter (fun m => decide (m ∉ cfKeys cf)) := by
        rw [List.filter_cons]
        simp [hn]
      rw [hfilter, hfilter2]
      simp

theorem nbrs_nodup (g : Grid) (r c : Int) : (get_neighbors_clockwise r c g).Nodup :=
  (directions_nodup.map (offsets_injective r c)).filter _

theorem bfsExpand_eq (g : Grid) (current : Cell) (queue : List Cell) (cf : CF) :
    bfsExpand g current queue cf =
      (queue ++ freshNbrs g current cf,
       cf ++ (freshNbrs g current cf).map (fun n => (n, some current))) := by
  unfold bfsExpand freshNbrs
  exact bfsFold_spec g current _ (nbrs_nodup g current.1 current.2) queue cf

theorem freshNbrs_fresh {g : Grid} {current : Cell} {cf : CF} {n : Cell}
    (h : n ∈ freshNbrs g current cf) : n ∉ cfKeys cf := by
  unfold freshNbrs at h
  have := (List.mem_filter.mp h).2
  exact of_decide_eq_true this

theorem freshNbrs_sub {g : Grid} {current : Cell} {cf : CF} {n : Cell}
    (h : n ∈ freshNbrs g current cf) :
    n ∈ get_neighbors_clockwise current.1 current.2 g :=
  (List.mem_filter.mp h).1

theorem freshNbrs_nodup (g : Grid) (current : Cell) (cf : CF) :
    (freshNbrs g current cf).Nodup :=
  (nbrs_nodup g current.1 current.2).filter _

theorem freshNbrs_covered {g : Grid} {current : Cell} {cf : CF} {n : Cell}
    (hn : n ∈ get_neighbors_clockwise current.1 current.2 g)
    (h : n ∉ freshNbrs g current cf) : n ∈ cfKeys cf := by
  by_contra hk
  exact h (List.mem_filter.mpr ⟨hn, decide_eq_true hk⟩)

/-! ### The BFS invariant: initialization and preservation -/

theorem bfsInv_init (g : Grid) (start : Cell) :
    BfsInv g start [start] [(start, none)] (fun _ => 0) := by
  refine ⟨?_, ?_, ?_, ?_, ?_, ?_, ?_, ?_, ?_⟩
  · simp [cfKeys]
  · simp
  · intro x hx
    simp only [List.mem_singleton] at hx
    simp [cfKeys, hx]
  · simp
  · intro h hh y hy
    omega
  · intro u hu hnq
    exfalso
    apply hnq
    simp only [cfKeys, List.map_cons, List.map_nil, List.mem_singleton] at hu
    simp [hu]
  · intro e he
    simp only [List.mem_singleton] at he
    subst he
    exact ⟨fun _ => rfl, fun u hu => by cases hu⟩
  · unfold cfLookup
    have hf : List.find? (fun e => decide (e.1 = start))
        ([(start, none)] : CF) = some (start, none) := by
      apply List.find?_cons_of_pos
      simp
    rw [hf]
    rfl
  · rfl

theorem pairwise_le_const {l : List Cell} {f : Cell → Nat} {k : Nat}
    (hl : ∀ x ∈ l, f x = k) : l.Pairwise (fun a b => f a ≤ f b) := by
  induction l with
  | nil => exact List.Pairwise.nil
  | cons a t ih =>
    refine List.Pairwise.cons ?_ (ih (fun x hx => hl x (List.mem_cons_of_mem a hx)))
    intro b hb
    rw [hl a (List.mem_cons_self a t), hl b (List.mem_cons_of_mem a hb)]

theorem bfsInv_step (g : Grid) (start h : Cell) (rest : List Cell) (cf : CF)
    (dep : Cell → Nat) (inv : BfsInv g start (h :: rest) cf dep) :
    BfsInv g start (rest ++ freshNbrs g h cf)
      (cf ++ (freshNbrs g h cf).map (fun n => (n, some h)))
      (fun x => if x ∈ freshNbrs g h cf then dep h + 1 else dep x) := by
  set ns := freshNbrs g h cf with hns
  set dep' := fun x => if x ∈ ns then dep h + 1 else dep x with hdep'
  have hkeys' : cfKeys (cf ++ ns.map (fun n => (n, some h))) = cfKeys cf ++ ns := by
    rw [cfKeys_append]
    congr 1
    unfold cfKeys
    rw [List.map_map]
    exact List.map_id ns
  have hfresh : ∀ n ∈ ns, n ∉ cfKeys cf := fun n hn => freshNbrs_fresh hn
  have hdold : ∀ x ∈ cfKeys cf, dep' x = dep x := by
    intro x hx
    exact if_neg (fun hmem => hfresh x hmem hx)
  have hdns : ∀ n ∈ ns, dep' n = dep h + 1 := fun n hn => if_pos hn
  have hh_mem : h ∈ cfKeys cf := inv.queue_sub h (List.mem_cons_self h rest)
  have hdh : dep' h = dep h := hdold h hh_mem
  have hrest_sub : ∀ x ∈ rest, x ∈ cfKeys cf :=
    fun x hx => inv.queue_sub x (List.mem_cons_of_mem h hx)
  have hrest_not_ns : ∀ x ∈ rest, x ∉ ns :=
    fun x hx hn => hfresh x hn (hrest_sub x hx)
  have hdrest : ∀ x ∈ rest, dep' x = dep x := fun x hx => hdold x (hrest_sub x hx)
  have hbound_old : ∀ y ∈ cfKeys cf, dep y ≤ dep h + 1 := inv.bound h rfl
  have hhead_le : ∀ x ∈ rest, dep h ≤ dep x := by
    have := List.pairwise_cons.mp inv.sorted
    exact this.1
  have hq_nodup : rest.Nodup := (List.nodup_cons.mp inv.queue_nodup).2
  refine ⟨?_, ?_, ?_, ?_, ?_, ?_, ?_, ?_, ?_⟩
  · rw [hkeys']
    exact inv.keys_nodup.append (freshNbrs_nodup g h cf)
      (fun a ha hb => hfresh a hb ha)
  · exact hq_nodup.append (freshNbrs_nodup g h cf) hrest_not_ns
  · intro x hx
    rw [hkeys']
    rcases List.mem_append.mp hx with hx | hx
    · exact List.mem_append_left _ (hrest_sub x hx)
    · exact List.mem_append_right _ hx
  · rw [List.pairwise_append]
    refine ⟨?_, ?_, ?_⟩
    · refine (List.pairwise_cons.mp inv.sorted).2.imp_of_mem ?_
      intro a b ha hb hab
      rw [hdrest a ha, hdrest b hb]
      exact hab
    · exact pairwise_le_const hdns
    · intro a ha b hb
      rw [hdrest a ha, hdns b hb]
      exact hbound_old a (hrest_sub a ha)
  · intro h' hh' y hy
    have hh'm : h' ∈ rest ++ ns := List.mem_of_mem_head? hh'
    have hge : dep h ≤ dep' h' := by
      rcases List.mem_append.mp hh'm with hm | hm
      · rw [hdrest h' hm]
        exact hhead_le h' hm
      · rw [hdns h' hm]
        omega
    rw [hkeys'] at hy
    rcases List.mem_append.mp hy with hy | hy
    · rw [hdold y hy]
      have := hbound_old y hy
      omega
    · rw [hdns y hy]
      omega
  · intro u hu hnq n hn
    have hu_not_ns : u ∉ ns := fun hin => hnq (List.mem_append_right _ hin)
    rw [hkeys'] at hu
    have hu_cf : u ∈ cfKeys cf := by
      rcases List.mem_append.mp hu with h1 | h1
      · exact h1
      · exact absurd h1 hu_not_ns
    have hdu : dep' u = dep u := hdold u hu_cf
    by_cases huh : u = h
    · subst huh
      by_cases hnn : n ∈ ns
      · refine ⟨by rw [hkeys']; exact List.mem_append_right _ hnn, ?_⟩
        rw [hdns n hnn, hdu]
      · have hncf : n ∈ cfKeys cf := freshNbrs_covered hn hnn
        refine ⟨by rw [hkeys']; exact List.mem_append_left _ hncf, ?_⟩
        rw [hdold n hncf, hdu]
        exact hbound_old n hncf
    · have hu_not_rest : u ∉ rest := fun hin => hnq (List.mem_append_left _ hin)
      have hu_not_old : u ∉ h :: rest := by
        intro hin
        rcases List.mem_cons.mp hin with h1 | h1
        · exact huh h1
        · exact hu_not_rest h1
      obtain ⟨hncf, hnd⟩ := inv.expanded u hu_cf hu_not_old n hn
      refine ⟨by rw [hkeys']; exact List.mem_append_left _ hncf, ?_⟩
      rw [hdold n hncf, hdu]
      exact hnd
  · intro e he
    rcases List.mem_append.mp he with he | he
    · have hold := inv.chain e he
      have he1 : e.1 ∈ cfKeys cf := mem_cfKeys.mpr ⟨e.2, he⟩
      refine ⟨hold.1, ?_⟩
      intro u hu
      obtain ⟨hucf, hdep, hnbr⟩ := hold.2 u hu
      refine ⟨by rw [hkeys']; exact List.mem_append_left _ hucf, ?_, hnbr⟩
      rw [hdold e.1 he1, hdold u hucf]
      exact hdep
    · obtain ⟨n, hn, rfl⟩ := List.mem_map.mp he
      constructor
      · intro hc
        cases hc
      · intro u hu
        have huh : h = u := Option.some.inj hu
        subst huh
        refine ⟨?_, ?_, freshNbrs_sub hn⟩
        · rw [hkeys']
          exact List.mem_append_left _ hh_mem
        · show dep' n = dep' h + 1
          rw [hdns n hn, hdh]
  · rw [cfLookup_append_left _ (cfLookup_isSome.mp (by rw [inv.start_mem]; rfl))]
    exact inv.start_mem
  · show dep' start = 0
    have hsm : start ∈ cfKeys cf := cfLookup_isSome.mp (by rw [inv.start_mem]; rfl)
    rw [hdold start hsm]
    exact inv.dep_start

/-! ### Minimality at the goal pop -/

theorem walkable_valid {g : Grid} {r c : Int} (h : g.is_walkable r c = true) :
    g.is_valid r c = true := by
  unfold Grid.is_walkable at h
  by_cases hv : g.is_valid r c = true
  · exact hv
  · rw [Bool.not_eq_true] at hv
    rw [hv] at h
    simp at h

theorem stepRel_mem_neighbors {g : Grid} {u v : Cell} (hs : stepRel u v)
    (hw : g.is_walkable v.1 v.2 = true) :
    v ∈ get_neighbors_clockwise u.1 u.2 g := by
  apply (neighbors_mem_iff g u.1 u.2 v).mpr
  refine ⟨⟨(v.1 - u.1, v.2 - u.2), hs, ?_⟩, walkable_valid hw, hw⟩
  have h1 : u.1 + (v.1 - u.1) = v.1 := by ring
  have h2 : u.2 + (v.2 - u.2) = v.2 := by ring
  rw [h1, h2]

theorem head_min {queue : List Cell} {dep : Cell → Nat} {h : Cell}
    (hs : (h :: queue).Pairwise (fun a b => dep a ≤ dep b)) :
    ∀ x ∈ h :: queue, dep h ≤ dep x := by
  intro x hx
  rcases List.mem_cons.mp hx with rfl | hx
  · exact le_refl _
  · exact (List.pairwise_cons.mp hs).1 x hx

theorem bfs_reach_bound (g : Grid) (start goal : Cell) (rest : List Cell)
    (cf : CF) (dep : Cell → Nat) (inv : BfsInv g start (goal :: rest) cf dep) :
    ∀ (tail : List Cell) (u : Cell) (k : Nat),
      u ∈ cfKeys cf → u ∉ goal :: rest → dep u ≤ k →
      List.Chain' stepRel (u :: tail) →
      (∀ x ∈ u :: tail, g.is_walkable x.1 x.2 = true) →
      (u :: tail).getLast? = some goal →
      dep goal ≤ k + tail.length := by
  intro tail
  induction tail with
  | nil =>
    intro u k hu hnq _ _ _ hlast
    exfalso
    have : u = goal := by
      have := hlast
      simp [List.getLast?] at this
      exact this
    exact hnq (this ▸ List.mem_cons_self goal rest)
  | cons v tail' ih =>
    intro u k hu hnq hdu hchain hwalk hlast
    have hsr : stepRel u v := (List.chain'_cons.mp hchain).1
    have hvw : g.is_walkable v.1 v.2 = true :=
      hwalk v (List.mem_cons_of_mem u (List.mem_cons_self v tail'))
    have hvn : v ∈ get_neighbors_clockwise u.1 u.2 g := stepRel_mem_neighbors hsr hvw
    obtain ⟨hvk, hvd⟩ := inv.expanded u hu hnq v hvn
    by_cases hvq : v ∈ goal :: rest
    · have hmin : dep goal ≤ dep v := head_min inv.sorted v hvq
      simp only [List.length_cons]
      omega
    · have hlast2 : (v :: tail').getLast? = some goal := by
        rw [List.getLast?_cons_cons] at hlast
        exact hlast
      have hrec := ih v (k + 1) hvk hvq (by omega)
        (List.chain'_cons.mp hchain).2
        (fun x hx => hwalk x (List.mem_cons_of_mem u hx))
        hlast2
      simp only [List.length_cons]
      omega

theorem bfs_goal_min (g : Grid) (start goal : Cell) (rest : List Cell)
    (cf : CF) (dep : Cell → Nat) (inv : BfsInv g start (goal :: rest) cf dep) :
    ∀ q, ValidPath g start goal q → dep goal + 1 ≤ q.length := by
  rintro q ⟨hne, hhead, hlast, hwalk, hchain⟩
  obtain ⟨x, tail, rfl⟩ := List.exists_cons_of_ne_nil hne
  have hx : start = x := by
    rw [List.head?_cons] at hhead
    exact (Option.some.inj hhead).symm
  subst hx
  by_cases hs : start ∈ goal :: rest
  · have h1 : dep goal ≤ dep start := head_min inv.sorted start hs
    rw [inv.dep_start] at h1
    simp only [List.length_cons]
    omega
  · have hsm : start ∈ cfKeys cf :=
      cfLookup_isSome.mp (by rw [inv.start_mem]; rfl)
    have := bfs_reach_bound g start goal rest cf dep inv tail start 0 hsm hs
      (by rw [inv.dep_start]) hchain hwalk hlast
    simp only [List.length_cons]
    omega

theorem walkBack_len {cf : CF} {dep : Cell → Nat} {start : Cell}
    (hroot : ∀ e ∈ cf, e.2 = none → e.1 = start)
    (hstep : ∀ e ∈ cf, ∀ u, e.2 = some u → u ∈ cfKeys cf ∧ dep e.1 = dep u + 1)
    (hd0 : dep start = 0) :
    ∀ (fuel : Nat) (x : Cell) (w : List Cell),
      walkBack (cfGet cf) fuel x = some w → x ∈ cfKeys cf →
      w.length = dep x + 1 := by
  intro fuel
  induction fuel with
  | zero => intro x w hw _; rw [walkBack_zero] at hw; cases hw
  | succ n ih =>
    intro x w hw hx
    match hg : cfGet cf x with
    | none =>
      rw [walkBack_succ_none n hg] at hw
      cases hw
      have hmem := cfGet_none_mem hx hg
      have hxs : x = start := hroot (x, none) hmem rfl
      simp [hxs, hd0]
    | some u =>
      rw [walkBack_succ_some n hg, Option.map_eq_some'] at hw
      obtain ⟨w', hw', rfl⟩ := hw
      have hmem := cfGet_mem hg
      obtain ⟨hu, hdx⟩ := hstep (x, some u) hmem u rfl
      have hlen := ih u w' hw' hu
      simp [hlen, hdx]

/-! ### Reconstructed paths are valid paths -/

theorem mem_neighbors_stepRel {g : Grid} {u v : Cell}
    (h : v ∈ get_neighbors_clockwise u.1 u.2 g) :
    stepRel u v ∧ g.is_walkable v.1 v.2 = true := by
  obtain ⟨⟨d, hd, rfl⟩, _, hw⟩ := (neighbors_mem_iff g u.1 u.2 v).mp h
  refine ⟨?_, hw⟩
  unfold stepRel
  have h1 : u.1 + d.1 - u.1 = d.1 := by ring
  have h2 : u.2 + d.2 - u.2 = d.2 := by ring
  simp only [h1, h2]
  exact hd

theorem walkBack_head {get : Cell → Option Cell} {fuel : Nat} {x : Cell}
    {w : List Cell} (h : walkBack get fuel x = some w) : w.head? = some x := by
  match fuel with
  | 0 => rw [walkBack_zero] at h; cases h
  | fuel + 1 =>
    match hg : get x with
    | none => rw [walkBack_succ_none fuel hg] at h; cases h; rfl
    | some nxt =>
      rw [walkBack_succ_some fuel hg, Option.map_eq_some'] at h
      obtain ⟨w', _, rfl⟩ := h
      rfl

theorem walkBack_valid {g : Grid} {start : Cell} {cf : CF}
    (hE : ∀ e ∈ cf, (e.2 = none → e.1 = start) ∧
      (∀ u, e.2 = some u → u ∈ cfKeys cf ∧
        e.1 ∈ get_neighbors_clockwise u.1 u.2 g))
    (hsw : g.is_walkable start.1 start.2 = true) :
    ∀ (fuel : Nat) (x : Cell) (w : List Cell),
      walkBack (cfGet cf) fuel x = some w → x ∈ cfKeys cf →
      (∀ y ∈ w, g.is_walkable y.1 y.2 = true) ∧
      List.Chain' (flip stepRel) w := by
  intro fuel
  induction fuel with
  | zero => intro x w hw _; rw [walkBack_zero] at hw; cases hw
  | succ n ih =>
    intro x w hw hx
    match hg : cfGet cf x with
    | none =>
      rw [walkBack_succ_none n hg] at hw
      cases hw
      have hxs : x = start := (hE (x, none) (cfGet_none_mem hx hg)).1 rfl
      subst hxs
      exact ⟨fun y hy => by
        rcases List.mem_singleton.mp hy with rfl
        exact hsw, List.chain'_singleton x⟩
    | some u =>
      rw [walkBack_succ_some n hg, Option.map_eq_some'] at hw
      obtain ⟨w', hw', rfl⟩ := hw
      have hmem := cfGet_mem hg
      obtain ⟨hu, hnbr⟩ := (hE (x, some u) hmem).2 u rfl
      obtain ⟨hstep, hxw⟩ := mem_neighbors_stepRel hnbr
      obtain ⟨hwalk', hchain'⟩ := ih u w' hw' hu
      refine ⟨?_, ?_⟩
      · intro y hy
        rcases List.mem_cons.mp hy with rfl | hy
        · exact hxw
        · exact hwalk' y hy
      · have hhd : w'.head? = some u := walkBack_head hw'
        match w', hhd with
        | u' :: rest, hhd =>
          have : u' = u := by
            rw [List.head?_cons] at hhd
            exact Option.some.inj hhd
          subst this
          exact List.chain'_cons.mpr ⟨hstep, hchain'⟩

theorem reconstruct_valid {g : Grid} {start goal : Cell} {cf : CF}
    (hE : ∀ e ∈ cf, (e.2 = none → e.1 = start) ∧
      (∀ u, e.2 = some u → u ∈ cfKeys cf ∧
        e.1 ∈ get_neighbors_clockwise u.1 u.2 g))
    (hsw : g.is_walkable start.1 start.2 = true)
    {fuel : Nat} {p : List Cell}
    (hr : reconstruct_path (cfGet cf) start goal fuel = some p)
    (hp : p ≠ []) (hgk : goal ∈ cfKeys cf) :
    ValidPath g start goal p := by
  unfold reconstruct_path at hr
  match hw : walkBack (cfGet cf) fuel goal with
  | none => rw [hw] at hr; cases hr
  | some w =>
    rw [hw, Option.map_some', Option.some.injEq] at hr
    by_cases hc : w.reverse.head? = some start
    · rw [if_pos hc] at hr
      subst hr
      obtain ⟨hwalk, hchain⟩ := walkBack_valid hE hsw fuel goal w hw hgk
      refine ⟨hp, hc, ?_, ?_, ?_⟩
      · rw [List.getLast?_reverse]
        exact walkBack_head hw
      · intro y hy
        exact hwalk y (List.mem_reverse.mp hy)
      · exact (List.chain'_reverse).mpr hchain
    · rw [if_neg hc] at hr
      exact absurd hr.symm hp

/-! ### The DFS neighbor loop and invariant -/

theorem dfsFold_spec (current : Cell) :
    ∀ (l : List Cell), l.Nodup →
      ∀ (stack : List Cell) (cf : CF) (log : List Cell),
      l.foldl
        (fun sc n =>
          if n ∈ cfKeys sc.2.1 then sc
          else (n :: sc.1, sc.2.1 ++ [(n, some current)], sc.2.2 ++ [n]))
        (stack, cf, log) =
      ((l.filter (fun n => decide (n ∉ cfKeys cf))).reverse ++ stack,
       cf ++ (l.filter (fun n => decide (n ∉ cfKeys cf))).map
         (fun n => (n, some current)),
       log ++ l.filter (fun n => decide (n ∉ cfKeys cf))) := by
  intro l
  induction l with
  | nil => intro _ stack cf log; simp
  | cons n t ih =>
    intro hnd stack cf log
    have hnt : n ∉ t := (List.nodup_cons.mp hnd).1
    have htnd : t.Nodup := (List.nodup_cons.mp hnd).2
    by_cases hn : n ∈ cfKeys cf
    · rw [List.foldl_cons, if_pos hn, ih htnd stack cf log]
      have hfilter : (n :: t).filter (fun m => decide (m ∉ cfKeys cf)) =
          t.filter (fun m => decide (m ∉ cfKeys cf)) := by
        rw [List.filter_cons]
        simp [hn]
      rw [hfilter]
    · rw [List.foldl_cons, if_neg hn,
        ih htnd (n :: stack) (cf ++ [(n, some current)]) (log ++ [n])]
      have hkeys : cfKeys (cf ++ [(n, some current)]) = cfKeys cf ++ [n] := by
        rw [cfKeys_append]; rfl
      have hfilter : t.filter
            (fun m => decide (m ∉ cfKeys (cf ++ [(n, some current)]))) =
          t.filter (fun m => decide (m ∉ cfKeys cf)) := by
        apply List.filter_congr
        intro m hm
        have hne : m ≠ n := fun h => hnt (h ▸ hm)
        rw [hkeys]
        simp [hne]
      have hfilter2 : (n :: t).filter (fun m => decide (m ∉ cfKeys cf)) =
          n :: t.filter (fun m => decide (m ∉ cfKeys cf)) := by
        rw [List.filter_cons]
        simp [hn]
      rw [hfilter, hfilter2]
      simp

theorem dfsExpand_eq (g : Grid) (current : Cell) (stack : List Cell) (cf : CF) :
    dfsExpand g current stack cf =
      (freshNbrs g current cf ++ stack,
       cf ++ (freshNbrs g current cf).reverse.map (fun n => (n, some current)),
       (freshNbrs g current cf).reverse) := by
  unfold dfsExpand
  rw [dfsFold_spec current _
    (List.nodup_reverse.mpr (nbrs_nodup g current.1 current.2)) stack cf []]
  rw [List.filter_reverse]
  unfold freshNbrs
  rw [List.reverse_reverse]
  simp

/-! ### The BFS run preserves `BfsGood` -/

theorem reconstruct_length {start goal : Cell} {cf : CF} {dep : Cell → Nat}
    (hroot : ∀ e ∈ cf, e.2 = none → e.1 = start)
    (hstep : ∀ e ∈ cf, ∀ u, e.2 = some u → u ∈ cfKeys cf ∧ dep e.1 = dep u + 1)
    (hd0 : dep start = 0) (hgk : goal ∈ cfKeys cf) {fuel : Nat} {p : List Cell}
    (hr : reconstruct_path (cfGet cf) start goal fuel = some p) (hp : p ≠ []) :
    p.length = dep goal + 1 := by
  unfold reconstruct_path at hr
  match hw : walkBack (cfGet cf) fuel goal with
  | none => rw [hw] at hr; cases hr
  | some w =>
    rw [hw, Option.map_some', Option.some.injEq] at hr
    by_cases hc : w.reverse.head? = some start
    · rw [if_pos hc] at hr
      subst hr
      rw [List.length_reverse]
      exact walkBack_len hroot hstep hd0 fuel goal w hw hgk
    · rw [if_neg hc] at hr
      exact absurd hr.symm hp

theorem bfsInv_ranked {g : Grid} {start : Cell} {queue : List Cell} {cf : CF}
    {dep : Cell → Nat} (inv : BfsInv g start queue cf dep) : cfRanked cf := by
  refine ⟨dep, fun x u hget => ?_⟩
  have hmem := cfGet_mem hget
  obtain ⟨_, hdep, _⟩ := (inv.chain (x, some u) hmem).2 u rfl
  have hdep' : dep x = dep u + 1 := hdep
  omega

theorem bool_eq_false {b : Bool} (h : ¬b = true) : b = false := by
  cases b
  · rfl
  · exact absurd rfl h

theorem bfsStep_good (g : Grid) (start goal : Cell) (st : BfsState)
    (hg : BfsGood g start goal st) : BfsGood g start goal (bfsStep g start goal st) := by
  unfold bfsStep
  by_cases hd : st.done = true
  · rw [if_pos hd]
    exact hg
  · rw [if_neg hd]
    have hd' : st.done = false := bool_eq_false hd
    obtain ⟨dep, inv⟩ := hg.1 hd'
    match hq : st.queue with
    | [] =>
      dsimp only
      exact And.intro (fun h => nomatch h) (And.intro hg.2.1 hg.2.2)
    | current :: rest =>
      dsimp only
      rw [hq] at inv
      by_cases hc : current = goal
      · rw [if_pos hc]
        rw [hc] at inv
        refine And.intro (fun h => nomatch h) (And.intro hg.2.1 ?_)
        intro _ hp q hq'
        show ((reconstruct_path (cfGet st.cf) start goal (st.cf.length + 1)).getD []).length
          ≤ q.length
        have hp' : ((reconstruct_path (cfGet st.cf) start goal
            (st.cf.length + 1)).getD []) ≠ [] := hp
        match hr : reconstruct_path (cfGet st.cf) start goal (st.cf.length + 1) with
        | none => rw [hr] at hp'; exact absurd rfl hp'
        | some p' =>
          rw [hr] at hp'
          have hgk : goal ∈ cfKeys st.cf :=
            inv.queue_sub goal (List.mem_cons_self goal rest)
          have hlen : p'.length = dep goal + 1 :=
            reconstruct_length (fun e he => (inv.chain e he).1)
              (fun e he u hu => by
                obtain ⟨h1, h2, _⟩ := (inv.chain e he).2 u hu
                exact ⟨h1, h2⟩)
              inv.dep_start hgk hr hp'
          show p'.length ≤ q.length
          rw [hlen]
          exact bfs_goal_min g start goal rest st.cf dep inv q hq'
      · rw [if_neg hc]
        rw [bfsExpand_eq]
        have inv' := bfsInv_step g start current rest st.cf dep inv
        exact And.intro (fun _ => ⟨_, inv'⟩) (And.intro (bfsInv_ranked inv') hg.2.2)

theorem bfsRun_good (g : Grid) (start goal : Cell) :
    ∀ fuel, BfsGood g start goal (bfsRun g start goal fuel) := by
  intro fuel
  induction fuel with
  | zero =>
    exact And.intro (fun _ => ⟨fun _ => 0, bfsInv_init g start⟩)
      (And.intro (bfsInv_ranked (bfsInv_init g start)) (fun h => nomatch h))
  | succ n ih =>
    exact bfsStep_good g start goal _ ih

/-! ### The DFS run preserves `DfsInv` and path validity -/

theorem dfsInv_init (g : Grid) (start : Cell) : DfsInv g start (dfsInit start) := by
  refine ⟨?_, ?_, ?_, ?_, ?_, ?_, ?_⟩
  · simp [dfsInit, cfKeys]
  · intro x hx
    simp only [dfsInit, List.mem_singleton] at hx
    simp [dfsInit, cfKeys, hx]
  · intro x hx
    simp [dfsInit] at hx
  · intro x hx
    simp only [dfsInit, List.mem_singleton] at hx
    simp [dfsInit, cfKeys, hx]
  · simp [dfsInit]
  · simp [dfsInit]
  · intro e he
    simp only [dfsInit, List.mem_singleton] at he
    subst he
    exact ⟨fun _ => rfl, fun u hu => by cases hu⟩

theorem dfsStep_inv (g : Grid) (start goal : Cell) (st : DfsState)
    (hinv : DfsInv g start st) : DfsInv g start (dfsStep g start goal st) := by
  unfold dfsStep
  by_cases hd : st.done = true
  · rw [if_pos hd]
    exact hinv
  · rw [if_neg hd]
    match hq : st.stack with
    | [] =>
      dsimp only
      exact ⟨hinv.keys_nodup, by rw [← hq]; exact hinv.stack_sub, hinv.explored_sub,
        hinv.log_sub, hinv.log_nodup, by rw [← hq]; exact hinv.se_nodup, hinv.chainE⟩
    | current :: rest =>
      dsimp only
      have hcur_stack : current ∈ st.stack := by
        rw [hq]; exact List.mem_cons_self current rest
      have hcur_keys : current ∈ cfKeys st.cf := hinv.stack_sub current hcur_stack
      have hse : (st.explored ++ current :: rest).Nodup := by
        rw [← hq]; exact hinv.se_nodup
      obtain ⟨he, hcr, hdisj⟩ := List.nodup_append.mp hse
      have hcr1 : current ∉ rest := (List.nodup_cons.mp hcr).1
      have hrest_nd : rest.Nodup := (List.nodup_cons.mp hcr).2
      have hrest_sub : ∀ x ∈ rest, x ∈ cfKeys st.cf := by
        intro x hx
        exact hinv.stack_sub x (by rw [hq]; exact List.mem_cons_of_mem current hx)
      by_cases hce : current ∈ st.explored
      · exact absurd hce (fun hcontra =>
          (List.disjoint_of_nodup_append hinv.se_nodup) hcontra hcur_stack)
      · rw [if_neg hce]
        by_cases hcg : current = goal
        · rw [if_pos hcg]
          refine ⟨hinv.keys_nodup, ?_, ?_, hinv.log_sub, hinv.log_nodup, ?_, hinv.chainE⟩
          · exact fun x hx => hrest_sub x hx
          · intro x hx
            rcases List.mem_append.mp hx with hx | hx
            · exact hinv.explored_sub x hx
            · rcases List.mem_singleton.mp hx with rfl
              exact hcur_keys
          · show ((st.explored ++ [current]) ++ rest).Nodup
            rw [List.append_assoc]
            exact hse
        · rw [if_neg hcg]
          rw [dfsExpand_eq]
          set ns := freshNbrs g current st.cf with hns
          have hkeys' : cfKeys (st.cf ++ ns.reverse.map (fun n => (n, some current))) =
              cfKeys st.cf ++ ns.reverse := by
            rw [cfKeys_append]
            congr 1
            unfold cfKeys
            rw [List.map_map]
            exact List.map_id _
          have hfreshr : ∀ n ∈ ns.reverse, n ∉ cfKeys st.cf :=
            fun n hn => freshNbrs_fresh (List.mem_reverse.mp hn)
          have hfresh : ∀ n ∈ ns, n ∉ cfKeys st.cf := fun n hn => freshNbrs_fresh hn
          refine ⟨?_, ?_, ?_, ?_, ?_, ?_, ?_⟩
          · rw [hkeys']
            exact hinv.keys_nodup.append
              (List.nodup_reverse.mpr (freshNbrs_nodup g current st.cf))
              (fun a ha hb => hfreshr a hb ha)
          · intro x hx
            rw [hkeys']
            rcases List.mem_append.mp hx with hx | hx
            · exact List.mem_append_right _ (List.mem_reverse.mpr hx)
            · exact List.mem_append_left _ (hrest_sub x hx)
          · intro x hx
            rw [hkeys']
            rcases List.mem_append.mp hx with hx | hx
            · exact List.mem_append_left _ (hinv.explored_sub x hx)
            · rcases List.mem_singleton.mp hx with rfl
              exact List.mem_append_left _ hcur_keys
          · intro x hx
            rw [hkeys']
            rcases List.mem_append.mp hx with hx | hx
            · exact List.mem_append_left _ (hinv.log_sub x hx)
            · exact List.mem_append_right _ hx
          · refine hinv.log_nodup.append
              (List.nodup_reverse.mpr (freshNbrs_nodup g current st.cf)) ?_
            intro a ha hb
            exact hfreshr a hb (hinv.log_sub a ha)
          · show ((st.explored ++ [current]) ++ (ns ++ rest)).Nodup
            have n1 : (st.explored ++ [current]).Nodup := by
              refine he.append (List.nodup_singleton current) ?_
              intro a ha hb
              rcases List.mem_singleton.mp hb with rfl
              exact (hdisj ha) (List.mem_cons_self a rest)
            have n2 : (ns ++ rest).Nodup := by
              refine (freshNbrs_nodup g current st.cf).append hrest_nd ?_
              intro a ha hb
              exact hfresh a ha (hrest_sub a hb)
            refine n1.append n2 ?_
            intro a ha hb
            rcases List.mem_append.mp ha with ha | ha
            · rcases List.mem_append.mp hb with hb | hb
              · exact hfresh a hb (hinv.explored_sub a ha)
              · exact (hdisj ha) (List.mem_cons_of_mem current hb)
            · rcases List.mem_singleton.mp ha with rfl
              rcases List.mem_append.mp hb with hb | hb
              · exact hfresh a hb hcur_keys
              · exact hcr1 hb
          · intro e he'
            rcases List.mem_append.mp he' with he' | he'
            · have hold := hinv.chainE e he'
              refine ⟨hold.1, ?_⟩
              intro u hu
              obtain ⟨hukeys, hnbr⟩ := hold.2 u hu
              exact ⟨by rw [hkeys']; exact List.mem_append_left _ hukeys, hnbr⟩
            · obtain ⟨n, hn, rfl⟩ := List.mem_map.mp he'
              constructor
              · intro hcontra
                cases hcontra
              · intro u hu
                have : current = u := Option.some.inj hu
                subst this
                refine ⟨by rw [hkeys']; exact List.mem_append_left _ hcur_keys, ?_⟩
                exact freshNbrs_sub (List.mem_reverse.mp hn)

theorem dfsStep_path (g : Grid) (start goal : Cell) (st : DfsState)
    (hinv : DfsInv g start st)
    (hpath : st.found = true → st.path ≠ [] →
      g.is_walkable start.1 start.2 = true → ValidPath g start goal st.path) :
    (dfsStep g start goal st).found = true → (dfsStep g start goal st).path ≠ [] →
      g.is_walkable start.1 start.2 = true →
      ValidPath g start goal (dfsStep g start goal st).path := by
  unfold dfsStep
  by_cases hd : st.done = true
  · rw [if_pos hd]
    exact hpath
  · rw [if_neg hd]
    match hq : st.stack with
    | [] =>
      dsimp only
      exact hpath
    | current :: rest =>
      dsimp only
      by_cases hce : current ∈ st.explored
      · rw [if_pos hce]
        exact hpath
      · rw [if_neg hce]
        by_cases hcg : current = goal
        · rw [if_pos hcg]
          intro _ hp hsw
          have hgk : goal ∈ cfKeys st.cf := by
            rw [← hcg]
            exact hinv.stack_sub current (by rw [hq]; exact List.mem_cons_self current rest)
          show ValidPath g start goal
            ((reconstruct_path (cfGet st.cf) start goal (st.cf.length + 1)).getD [])
          have hp' : ((reconstruct_path (cfGet st.cf) start goal
              (st.cf.length + 1)).getD []) ≠ [] := hp
          match hr : reconstruct_path (cfGet st.cf) start goal (st.cf.length + 1) with
          | none => rw [hr] at hp'; exact absurd rfl hp'
          | some p' =>
            rw [hr] at hp'
            exact reconstruct_valid hinv.chainE hsw hr hp' hgk
        · rw [if_neg hcg]
          exact hpath

theorem dfsRun_good (g : Grid) (start goal : Cell) :
    ∀ fuel, DfsGood g start goal (dfsRun g start goal fuel) := by
  intro fuel
  induction fuel with
  | zero =>
    exact ⟨dfsInv_init g start, fun h => nomatch h⟩
  | succ n ih =>
    exact ⟨dfsStep_inv g start goal _ ih.1, dfsStep_path g start goal _ ih.1 ih.2⟩

/-! ### Claims C1, C6 and C9 -/

/-- Claim C1: whenever BFS terminates with a non-empty path, that path
has the minimum number of cells among all start-to-goal paths of
walkable cells in the grid (unit edge weights, 8-connected moves); in
particular it is no longer than any non-empty path DFS finds on the same
grid (whenever the start cell itself is walkable, as it is in the
application where it holds the `START` marker). -/
theorem bfs_shortest (g : Grid) (start goal : Cell) (fuel : Nat)
    (hfound : (bfsRun g start goal fuel).found = true)
    (hpath : (bfsRun g start goal fuel).path ≠ []) :
    (∀ q, ValidPath g start goal q →
      (bfsRun g start goal fuel).path.length ≤ q.length) ∧
    (∀ fuel2, (dfsRun g start goal fuel2).found = true →
      (dfsRun g start goal fuel2).path ≠ [] →
      g.is_walkable start.1 start.2 = true →
      (bfsRun g start goal fuel).path.length ≤
        (dfsRun g start goal fuel2).path.length) := by
  have hmin := (bfsRun_good g start goal fuel).2.2 hfound hpath
  refine ⟨hmin, ?_⟩
  intro fuel2 hf2 hp2 hsw
  exact hmin _ ((dfsRun_good g start goal fuel2).2 hf2 hp2 hsw)

/-- Witness for C1: on the open 2×2 grid, BFS finds `[(0,0), (1,1)]` and
its length is minimal among all valid paths (and below DFS's). -/
theorem bfs_shortest_witness :
    (bfsRun grid2 (0, 0) (1, 1) 10).found = true ∧
    (bfsRun grid2 (0, 0) (1, 1) 10).path ≠ [] ∧
    ((∀ q, ValidPath grid2 (0, 0) (1, 1) q →
        (bfsRun grid2 (0, 0) (1, 1) 10).path.length ≤ q.length) ∧
     (∀ fuel2, (dfsRun grid2 (0, 0) (1, 1) fuel2).found = true →
        (dfsRun grid2 (0, 0) (1, 1) fuel2).path ≠ [] →
        grid2.is_walkable 0 0 = true →
        (bfsRun grid2 (0, 0) (1, 1) 10).path.length ≤
          (dfsRun grid2 (0, 0) (1, 1) fuel2).path.length)) :=
  ⟨by decide, by decide, bfs_shortest grid2 (0, 0) (1, 1) 10 (by decide) (by decide)⟩

/-- Claim C6 counterexample: in every DFS execution, the push log (which
records every stack push, including the initial seeding of `start`)
never contains a duplicate — no cell is ever pushed more than once, let
alone "pushed multiple times before being marked explored".  The guard
`neighbor not in came_from`, recorded at push time, prevents it. -/
theorem dfs_push_at_most_once (g : Grid) (start goal : Cell) (fuel : Nat) :
    ((dfsRun g start goal fuel).pushLog).Nodup :=
  (dfsRun_good g start goal fuel).1.log_nodup

/-- Claim C6 counterexample at a concrete input: on the open 3×3 grid
from `(0,0)` — where every interior cell is adjacent to several already
discovered cells, so the claimed extra pushes would have to occur — the
complete DFS run (the stack has emptied and the loop has exited) pushes
each of the nine cells exactly once: the push log holds 9 distinct
cells.  No cell is ever pushed twice, explored or not. -/
theorem dfs_push_once_example :
    (dfsRun grid3 (0, 0) (5, 5) 12).pushLog.Nodup ∧
    (dfsRun grid3 (0, 0) (5, 5) 12).pushLog.length = 9 ∧
    (dfsRun grid3 (0, 0) (5, 5) 12).stack = [] ∧
    (dfsRun grid3 (0, 0) (5, 5) 12).done = true :=
  ⟨by decide, by decide, by decide, by decide⟩

/-- Claim C6 (amended): the skip branch for an already-explored popped
cell exists in the code but never fires — in every reachable DFS state
the stack is disjoint from the explored list (so every popped cell is
unexplored), because each cell is pushed at most once. -/
theorem dfs_skip_branch_dead (g : Grid) (start goal : Cell) (fuel : Nat) :
    List.Disjoint (dfsRun g start goal fuel).stack
      (dfsRun g start goal fuel).explored := by
  intro a ha hb
  exact (List.disjoint_of_nodup_append (dfsRun_good g start goal fuel).1.se_nodup)
    hb ha

/-- Claim C9: `reconstruct_path` terminates on every predecessor map
whose backward pointers are acyclic — certified by a rank strictly
decreasing along the `get` pointers, the walk returns within
`rank goal + 1` steps; and the `came_from` map of every BFS run carries
such a rank (each new cell points to an already-discovered cell). -/
theorem reconstruct_path_terminates :
    (∀ (get : Cell → Option Cell) (rank : Cell → Nat),
      (∀ x y, get x = some y → rank y < rank x) →
      ∀ (start goal : Cell) (fuel : Nat), rank goal < fuel →
        (reconstruct_path get start goal fuel).isSome = true) ∧
    (∀ (g : Grid) (start goal : Cell) (fuel : Nat),
      cfRanked (bfsRun g start goal fuel).cf) := by
  constructor
  · intro get rank hrank start goal fuel hf
    obtain ⟨w, hw⟩ := walkBack_total get rank hrank fuel goal hf
    unfold reconstruct_path
    rw [hw]
    rfl
  · intro g start goal fuel
    exact (bfsRun_good g start goal fuel).2.1

/-- Witness for C9: on the empty predecessor map (rank constantly `0`,
trivially decreasing along the no pointers there are), reconstruction
from `(0,0)` terminates with fuel `1`. -/
theorem reconstruct_path_terminates_witness :
    (∀ x y, exGet x = some y → (fun _ : Cell => 0) y < (fun _ : Cell => 0) x) ∧
    (reconstruct_path exGet (1, 1) (0, 0) 1).isSome = true :=
  ⟨fun _ _ h => Option.noConfusion h,
   reconstruct_path_terminates.1 exGet (fun _ => 0)
     (fun _ _ h => Option.noConfusion h) (1, 1) (0, 0) 1 (by decide)⟩

/-! ### Claim C5: depth-limited search at the failing input -/

/-- Claim C5 (the code evaluated at the failing input): on the open 3×3
grid with `depth_limit = 2`, the 2-move path
`[(0,0), (1,0), (2,0)]` lies within the depth limit, yet `dls` reports
failure.  The neighbor filter consults the global `came_from` (never
`path_set`): `(1,0)` is first reached at remaining depth 0 inside the
doomed branch through `(0,1)`, is recorded in `came_from` there, and is
skipped when the backtracking search could have expanded it at depth 1,
so the goal `(2,0)` is never reached. -/
theorem dls_misses_reachable_goal :
    (dls grid3 (0, 0) (2, 0) 2).1.found = false ∧
    (dls grid3 (0, 0) (2, 0) 2).2 = [] ∧
    ValidPath grid3 (0, 0) (2, 0) [(0, 0), (1, 0), (2, 0)] ∧
    [((0 : Int), (0 : Int)), (1, 0), (2, 0)].length ≤ 2 + 1 :=
  ⟨by decide, by decide, by decide, by decide⟩

/-! ### Claim C8: the per-attempt frontier of `iddfs` is append-only -/

theorem listExtends_refl {α : Type} (l : List α) : listExtends l l :=
  ⟨[], (List.append_nil l).symm⟩

theorem listExtends_append {α : Type} (l t : List α) : listExtends l (l ++ t) :=
  ⟨t, rfl⟩

theorem listExtends_trans {α : Type} {a b c : List α}
    (h1 : listExtends a b) (h2 : listExtends b c) : listExtends a c := by
  obtain ⟨t1, rfl⟩ := h1
  obtain ⟨t2, rfl⟩ := h2
  exact ⟨t1 ++ t2, List.append_assoc a t1 t2⟩

theorem chain_snoc_snoc {l : List (List Cell)} {a b : List Cell}
    (h : List.Chain' listExtends (l ++ [a])) (hab : listExtends a b) :
    List.Chain' listExtends (l ++ [b, b]) := by
  rw [List.chain'_append] at h ⊢
  obtain ⟨hl, _, hlink⟩ := h
  refine ⟨hl, ?_, ?_⟩
  · exact List.chain'_cons.mpr ⟨listExtends_refl b, List.chain'_singleton b⟩
  · intro x hx y hy
    rw [List.head?_cons, Option.mem_def, Option.some.injEq] at hy
    subst hy
    exact listExtends_trans (hlink x hx a rfl) hab

theorem chain_drop_last {l : List (List Cell)} {a : List Cell}
    (h : List.Chain' listExtends (l ++ [a])) : List.Chain' listExtends l :=
  ((List.chain'_append).mp h).1

theorem iddfsNbrsGo_chain (g : Grid) (start goal node : Cell)
    (visit : Cell → IddfsState → IddfsState)
    (hvisit : ∀ (n : Cell) (st : IddfsState), st.found = false → FrontChain st →
      ((visit n st).found = false → FrontChain (visit n st)) ∧
      ((visit n st).found = true → FrontChainFound (visit n st))) :
    ∀ (l : List Cell) (st : IddfsState), st.found = false → FrontChain st →
      ((iddfsNbrsGo g start goal node visit l st).found = false →
        FrontChain (iddfsNbrsGo g start goal node visit l st)) ∧
      ((iddfsNbrsGo g start goal node visit l st).found = true →
        FrontChainFound (iddfsNbrsGo g start goal node visit l st)) := by
  intro l
  induction l with
  | nil =>
    intro st hf hc
    unfold iddfsNbrsGo
    refine ⟨fun _ => hc, fun hfound => ?_⟩
    rw [hf] at hfound
    cases hfound
  | cons n rest ih =>
    intro st hf hc
    unfold iddfsNbrsGo
    by_cases hn : n ∈ cfKeys st.cf
    · rw [if_pos hn]
      exact ih st hf hc
    · rw [if_neg hn]
      dsimp only
      set st1 : IddfsState :=
        { st with cf := st.cf ++ [(n, some node)],
                  frontier := st.frontier ++ [n],
                  snaps := st.snaps ++
                    [(st.allExplored, st.frontier ++ [n], [])] } with hst1
      have hc1 : FrontChain st1 := by
        unfold FrontChain at hc ⊢
        rw [hst1]
        simp only [List.map_append, List.map_cons, List.map_nil]
        rw [List.append_assoc]
        exact chain_snoc_snoc hc (listExtends_append st.frontier [n])
      have hf1 : st1.found = false := hf
      obtain ⟨hv1, hv2⟩ := hvisit n st1 hf1 hc1
      by_cases hfound : (visit n st1).found = true
      · rw [if_pos hfound]
        refine ⟨fun hcontra => ?_, fun _ => hv2 hfound⟩
        rw [hfound] at hcontra
        cases hcontra
      · rw [if_neg hfound]
        have hfalse : (visit n st1).found = false := bool_eq_false hfound
        exact ih (visit n st1) hfalse (hv1 hfalse)

theorem iddfsVisit_chain (g : Grid) (start goal : Cell) :
    ∀ (depth : Nat) (node : Cell) (st : IddfsState), st.found = false →
      FrontChain st →
      ((iddfsVisit g start goal depth node st).found = false →
        FrontChain (iddfsVisit g start goal depth node st)) ∧
      ((iddfsVisit g start goal depth node st).found = true →
        FrontChainFound (iddfsVisit g start goal depth node st)) := by
  intro depth
  induction depth with
  | zero =>
    intro node st hf hc
    unfold iddfsVisit
    dsimp only
    by_cases hg' : node = goal
    · rw [if_pos hg']
      refine ⟨(fun hcontra => nomatch hcontra), fun _ => ?_⟩
      unfold FrontChainFound
      simp only [List.dropLast_concat]
      exact chain_drop_last hc
    · rw [if_neg hg']
      refine ⟨fun _ => ?_, fun hcontra => ?_⟩
      · unfold FrontChain at hc ⊢
        simp only [List.map_append, List.map_cons, List.map_nil]
        rw [List.append_assoc]
        exact chain_snoc_snoc hc (listExtends_refl st.frontier)
      · rw [hf] at hcontra
        cases hcontra
  | succ d ih =>
    intro node st hf hc
    unfold iddfsVisit
    dsimp only
    by_cases hg' : node = goal
    · rw [if_pos hg']
      refine ⟨(fun hcontra => nomatch hcontra), fun _ => ?_⟩
      unfold FrontChainFound
      simp only [List.dropLast_concat]
      exact chain_drop_last hc
    · rw [if_neg hg']
      exact iddfsNbrsGo_chain g start goal node (iddfsVisit g start goal d)
        (fun n st' hf' hc' => ih n st' hf' hc')
        (get_neighbors_clockwise node.1 node.2 g) _ hf hc

/-- Claim C8: within a single depth-bound attempt of iterative deepening,
the displayed frontier is append-only — each yielded frontier extends
the previous one by appended elements only (the `discard` on backtrack
is a no-op on a plain list), up to the terminal success snapshot that
ends the attempt. -/
theorem iddfs_frontier_append_only (g : Grid) (start goal : Cell)
    (limit : Nat) (prior : List Cell) :
    List.Chain' listExtends
      ((if (iddfsAttempt g start goal limit prior).found = true
        then (iddfsAttempt g start goal limit prior).snaps.dropLast
        else (iddfsAttempt g start goal limit prior).snaps).map
        (fun t => t.2.1)) := by
  have hinit : FrontChain
      (⟨[(start, none)], [], prior, [], false, []⟩ : IddfsState) := by
    unfold FrontChain
    exact List.chain'_singleton _
  obtain ⟨h1, h2⟩ := iddfsVisit_chain g start goal limit start
    ⟨[(start, none)], [], prior, [], false, []⟩ rfl hinit
  by_cases hfound : (iddfsAttempt g start goal limit prior).found = true
  · rw [if_pos hfound]
    exact h2 hfound
  · rw [if_neg hfound]
    have hc := h1 (bool_eq_false hfound)
    unfold FrontChain at hc
    exact chain_drop_last hc

/-! ### Claim C4: bidirectional search -/

theorem cfLookup_map_pair {ns : List Cell} {x current : Cell} (h : x ∈ ns) :
    cfLookup (ns.map (fun n => (n, some current))) x = some (some current) := by
  induction ns with
  | nil => cases h
  | cons n t ih =>
    by_cases hx : n = x
    · subst hx
      unfold cfLookup
      rw [List.map_cons, List.find?_cons_of_pos _ (by simp)]
      rfl
    · unfold cfLookup at ih ⊢
      rw [List.map_cons, List.find?_cons_of_neg _ (by simp [hx])]
      exact ih ((List.mem_cons.mp h).resolve_left (fun he => hx he.symm))

theorem walkBack_last {cf : CF} {root : Cell}
    (hE : ∀ e ∈ cf, (e.2 = none → e.1 = root) ∧
      (∀ u, e.2 = some u → u ∈ cfKeys cf)) :
    ∀ (fuel : Nat) (x : Cell) (w : List Cell),
      walkBack (cfGet cf) fuel x = some w → x ∈ cfKeys cf →
      w.getLast? = some root := by
  intro fuel
  induction fuel with
  | zero => intro x w hw _; rw [walkBack_zero] at hw; cases hw
  | succ n ih =>
    intro x w hw hx
    match hg : cfGet cf x with
    | none =>
      rw [walkBack_succ_none n hg] at hw
      cases hw
      have hxs : x = root := (hE (x, none) (cfGet_none_mem hx hg)).1 rfl
      rw [hxs]
      rfl
    | some u =>
      rw [walkBack_succ_some n hg, Option.map_eq_some'] at hw
      obtain ⟨w', hw', rfl⟩ := hw
      have hu : u ∈ cfKeys cf := (hE (x, some u) (cfGet_mem hg)).2 u rfl
      have hlast := ih u w' hw' hu
      obtain ⟨a, t, rfl⟩ := List.exists_cons_of_ne_nil (walkBack_ne_nil hw')
      rw [List.getLast?_cons_cons]
      exact hlast

theorem walkBack_count_rank {get : Cell → Option Cell} {rank : Cell → Nat}
    (hrank : ∀ x u, get x = some u → rank u < rank x) :
    ∀ (fuel : Nat) (x : Cell) (w : List Cell),
      walkBack get fuel x = some w →
      w.count x = 1 ∧ ∀ y ∈ w, rank y ≤ rank x := by
  intro fuel
  induction fuel with
  | zero => intro x w hw; rw [walkBack_zero] at hw; cases hw
  | succ n ih =>
    intro x w hw
    match hg : get x with
    | none =>
      rw [walkBack_succ_none n hg] at hw
      cases hw
      refine ⟨by simp, ?_⟩
      intro y hy
      rcases List.mem_singleton.mp hy with rfl
      exact le_refl _
    | some u =>
      rw [walkBack_succ_some n hg, Option.map_eq_some'] at hw
      obtain ⟨w', hw', rfl⟩ := hw
      obtain ⟨hcnt, hle⟩ := ih u w' hw'
      have hux : rank u < rank x := hrank x u hg
      have hxnot : x ∉ w' := by
        intro hmem
        have := hle x hmem
        omega
      refine ⟨?_, ?_⟩
      · rw [List.count_cons_self, List.count_eq_zero.mpr hxnot]
      · intro y hy
        rcases List.mem_cons.mp hy with rfl | hy
        · exact le_refl _
        · have := hle y hy
          omega

theorem sideInv_init (root : Cell) : SideInv root [(root, none)] [root] := by
  refine ⟨?_, ?_, ?_, ?_, ?_⟩
  · simp [cfKeys]
  · intro x hx
    rcases List.mem_singleton.mp hx with rfl
    simp [cfKeys]
  · unfold cfLookup
    rw [List.find?_cons_of_pos _ (by simp)]
    rfl
  · intro e he
    rcases List.mem_singleton.mp he with rfl
    exact ⟨fun _ => rfl, fun u hu => Option.noConfusion hu⟩
  · refine ⟨fun _ => 0, ?_, ?_⟩
    · intro x u hxu
      have hmem := cfGet_mem hxu
      rcases List.mem_singleton.mp hmem with heq
      exact Option.noConfusion (congrArg Prod.snd heq)
    · intro x hx
      exact Nat.one_pos

theorem sideInv_pop {root x : Cell} {cf : CF} {q : List Cell}
    (inv : SideInv root cf (x :: q)) : SideInv root cf q :=
  ⟨inv.keys_nodup, fun y hy => inv.q_sub y (List.mem_cons_of_mem x hy),
   inv.root_none, inv.chain, inv.ranked⟩

theorem sideInv_expand (g : Grid) {root current : Cell} {cf : CF} {q : List Cell}
    (inv : SideInv root cf (current :: q)) :
    SideInv root (bfsExpand g current q cf).2 (bfsExpand g current q cf).1 := by
  rw [bfsExpand_eq]
  set ns := freshNbrs g current cf with hns
  have hkeysmap : cfKeys (ns.map (fun n => (n, some current))) = ns := by
    unfold cfKeys
    rw [List.map_map]
    exact List.map_id ns
  have hkeys' : cfKeys (cf ++ ns.map (fun n => (n, some current))) = cfKeys cf ++ ns := by
    rw [cfKeys_append, hkeysmap]
  have hfresh : ∀ n ∈ ns, n ∉ cfKeys cf := fun n hn => freshNbrs_fresh hn
  have hcur : current ∈ cfKeys cf := inv.q_sub current (List.mem_cons_self current q)
  obtain ⟨rank, hdec, hbound⟩ := inv.ranked
  refine ⟨?_, ?_, ?_, ?_, ?_⟩
  · rw [hkeys']
    exact inv.keys_nodup.append (freshNbrs_nodup g current cf)
      (fun a ha hb => hfresh a hb ha)
  · intro x hx
    rw [hkeys']
    rcases List.mem_append.mp hx with hx | hx
    · exact List.mem_append_left _ (inv.q_sub x (List.mem_cons_of_mem current hx))
    · exact List.mem_append_right _ hx
  · rw [cfLookup_append_left _ (cfLookup_isSome.mp (by rw [inv.root_none]; rfl))]
    exact inv.root_none
  · intro e he
    rcases List.mem_append.mp he with he | he
    · obtain ⟨h1, h2⟩ := inv.chain e he
      refine ⟨h1, fun u hu => ?_⟩
      rw [hkeys']
      exact List.mem_append_left _ (h2 u hu)
    · obtain ⟨n, hn, rfl⟩ := List.mem_map.mp he
      refine ⟨fun h => Option.noConfusion h, fun u hu => ?_⟩
      have hcu : current = u := Option.some.inj hu
      subst hcu
      rw [hkeys']
      exact List.mem_append_left _ hcur
  · refine ⟨fun x => if x ∈ ns then rank current + 1 else rank x, ?_, ?_⟩
    · intro x u hxu
      dsimp only
      by_cases hxcf : x ∈ cfKeys cf
      · have hget : cfGet cf x = some u := by
          unfold cfGet at hxu ⊢
          rw [cfLookup_append_left _ hxcf] at hxu
          exact hxu
        have hucf : u ∈ cfKeys cf := (inv.chain (x, some u) (cfGet_mem hget)).2 u rfl
        rw [if_neg (fun h => hfresh x h hxcf), if_neg (fun h => hfresh u h hucf)]
        exact hdec x u hget
      · have hxu' : cfLookup (cf ++ ns.map (fun n => (n, some current))) x =
            cfLookup (ns.map (fun n => (n, some current))) x :=
          cfLookup_append_right _ hxcf
        by_cases hxns : x ∈ ns
        · have hgx : cfGet (cf ++ ns.map (fun n => (n, some current))) x = some current := by
            unfold cfGet
            rw [hxu', cfLookup_map_pair hxns]
            rfl
          have hucur : u = current := by
            rw [hgx] at hxu
            exact (Option.some.inj hxu).symm
          subst hucur
          rw [if_pos hxns, if_neg (fun h => hfresh u h hcur)]
          omega
        · exfalso
          have hgx : cfGet (cf ++ ns.map (fun n => (n, some current))) x = none := by
            unfold cfGet
            rw [hxu', cfLookup_eq_none (fun hmem => hxns (hkeysmap ▸ hmem))]
            rfl
          rw [hgx] at hxu
          cases hxu
    · intro x hx
      dsimp only
      rw [hkeys'] at hx
      rw [List.length_append, List.length_map]
      rcases List.mem_append.mp hx with hx | hx
      · rw [if_neg (fun h => hfresh x h hx)]
        have := hbound x hx
        omega
      · rw [if_pos hx]
        have hc := hbound current hcur
        have hlen : 0 < ns.length := List.length_pos.mpr (List.ne_nil_of_mem hx)
        omega

theorem bfsExpand_keys_mono {g : Grid} {current : Cell} {q : List Cell} {cf : CF}
    {x : Cell} (h : x ∈ cfKeys cf) : x ∈ cfKeys (bfsExpand g current q cf).2 := by
  rw [bfsExpand_eq, cfKeys_append]
  exact List.mem_append_left _ h

theorem intersect_isSome {fv bv : CF} (x : Cell) (h1 : x ∈ cfKeys fv)
    (h2 : x ∈ cfKeys bv) : (intersectVisited fv bv).isSome = true := by
  unfold intersectVisited
  rw [List.find?_isSome]
  exact ⟨x, h1, decide_eq_true h2⟩

theorem intersect_mem {fv bv : CF} {m : Cell}
    (h : intersectVisited fv bv = some m) : m ∈ cfKeys fv ∧ m ∈ cfKeys bv := by
  unfold intersectVisited at h
  refine ⟨List.mem_of_find?_eq_some h, ?_⟩
  have hp := List.find?_some h
  exact of_decide_eq_true hp

theorem bidirInv_init (start goal : Cell) : BidirInv start goal (bidirInit start goal) :=
  ⟨sideInv_init start, sideInv_init goal, fun m hm => Option.noConfusion hm⟩

theorem bidirStep_done {g : Grid} {st : BidirState} (h : st.done = true) :
    bidirStep g st = st := by
  unfold bidirStep
  rw [if_pos h]

theorem bidirRun_done_mono (g : Grid) (start goal : Cell) (fuel : Nat)
    (h : (bidirRun g start goal fuel).done = true) :
    ∀ j, (bidirRun g start goal (fuel + j)).done = true := by
  intro j
  induction j with
  | zero => exact h
  | succ n ih =>
    show (bidirStep g (bidirRun g start goal (fuel + n))).done = true
    rw [bidirStep_done ih]
    exact ih

theorem bidirStep_meet {g : Grid} {st : BidirState}
    (h : (intersectVisited st.fv st.bv).isSome = true) :
    (bidirStep g st).done = true := by
  obtain ⟨m, hm⟩ := Option.isSome_iff_exists.mp h
  unfold bidirStep
  by_cases hd : st.done = true
  · rw [if_pos hd]
    exact hd
  · rw [if_neg hd]
    by_cases hq : st.fq = [] ∧ st.bq = []
    · rw [if_pos hq]
    · rw [if_neg hq]
      match hfq : st.fq with
      | current :: rest =>
        dsimp only
        rw [hm]
        dsimp only
        rw [if_pos rfl]
      | [] =>
        dsimp only
        rw [if_neg hd]
        match hbq : st.bq with
        | [] => exact absurd ⟨hfq, hbq⟩ hq
        | current :: rest =>
          dsimp only
          rw [hm]

theorem bidirInv_step (g : Grid) (start goal : Cell) (st : BidirState)
    (inv : BidirInv start goal st) : BidirInv start goal (bidirStep g st) := by
  obtain ⟨invF, invB, invM⟩ := inv
  unfold bidirStep
  by_cases hd : st.done = true
  · rw [if_pos hd]
    exact ⟨invF, invB, invM⟩
  · rw [if_neg hd]
    by_cases hq : st.fq = [] ∧ st.bq = []
    · rw [if_pos hq]
      exact ⟨invF, invB, invM⟩
    · rw [if_neg hq]
      match hfq : st.fq with
      | [] =>
        dsimp only
        rw [if_neg hd]
        match hbq : st.bq with
        | [] => exact ⟨invF, invB, invM⟩
        | current :: rest =>
          dsimp only
          rw [hbq] at invB
          match hint : intersectVisited st.fv st.bv with
          | some m =>
            dsimp only
            obtain ⟨hm1, hm2⟩ := intersect_mem hint
            exact ⟨invF, sideInv_pop invB,
              fun m' hm' => Option.some.inj hm' ▸ And.intro hm1 hm2⟩
          | none =>
            dsimp only
            exact ⟨invF, sideInv_expand g invB,
              fun m' hm' => And.intro (invM m' hm').1
                (bfsExpand_keys_mono (invM m' hm').2)⟩
      | current :: rest =>
        dsimp only
        rw [hfq] at invF
        match hint : intersectVisited st.fv st.bv with
        | some m =>
          dsimp only
          rw [if_pos rfl]
          obtain ⟨hm1, hm2⟩ := intersect_mem hint
          exact ⟨sideInv_pop invF, invB,
            fun m' hm' => Option.some.inj hm' ▸ And.intro hm1 hm2⟩
        | none =>
          dsimp only
          rw [if_neg hd]
          match hbq : st.bq with
          | [] =>
            dsimp only
            rw [hbq] at invB
            exact ⟨sideInv_expand g invF, invB,
              fun m' hm' => And.intro (bfsExpand_keys_mono (invM m' hm').1)
                (invM m' hm').2⟩
          | current' :: rest' =>
            dsimp only
            rw [hbq] at invB
            match hint' : intersectVisited (bfsExpand g current rest st.fv).2 st.bv with
            | some m' =>
              dsimp only
              obtain ⟨hm1, hm2⟩ := intersect_mem hint'
              exact ⟨sideInv_expand g invF, sideInv_pop invB,
                fun m'' hm'' => Option.some.inj hm'' ▸ And.intro hm1 hm2⟩
            | none =>
              dsimp only
              exact ⟨sideInv_expand g invF, sideInv_expand g invB,
                fun m'' hm'' => And.intro
                  (bfsExpand_keys_mono (invM m'' hm'').1)
                  (bfsExpand_keys_mono (invM m'' hm'').2)⟩

theorem bidirRun_inv (g : Grid) (start goal : Cell) (fuel : Nat) :
    BidirInv start goal (bidirRun g start goal fuel) := by
  induction fuel with
  | zero => exact bidirInv_init start goal
  | succ n ih => exact bidirInv_step g start goal _ ih

theorem bidirPath_spec {start goal m : Cell} {fv bv : CF} {qf qb : List Cell}
    (hF : SideInv start fv qf) (hB : SideInv goal bv qb)
    (hmf : m ∈ cfKeys fv) (hmb : m ∈ cfKeys bv) :
    (bidirPath fv bv m).head? = some start ∧
    (bidirPath fv bv m).getLast? = some goal ∧
    (bidirPath fv bv m).count m = 1 := by
  obtain ⟨rankF, hdecF, hboundF⟩ := hF.ranked
  obtain ⟨w, hw⟩ := walkBack_total (cfGet fv) rankF hdecF (fv.length + 1) m
    (Nat.lt_succ_of_lt (hboundF m hmf))
  have hlastw : w.getLast? = some start := walkBack_last hF.chain _ m w hw hmf
  have hheadw : w.head? = some m := walkBack_head hw
  obtain ⟨hcntw, hlew⟩ := walkBack_count_rank hdecF _ m w hw
  unfold bidirPath
  rw [hw]
  dsimp only
  rw [Option.getD_some]
  match hgb : cfGet bv m with
  | none =>
    have hmg : m = goal := (hB.chain (m, none) (cfGet_none_mem hmb hgb)).1 rfl
    dsimp only
    rw [List.append_nil]
    refine ⟨?_, ?_, ?_⟩
    · rw [List.head?_reverse]
      exact hlastw
    · rw [List.getLast?_reverse, hheadw, hmg]
    · rw [List.count_reverse]
      exact hcntw
  | some u =>
    have hmemb : (m, some u) ∈ bv := cfGet_mem hgb
    have hub : u ∈ cfKeys bv := (hB.chain _ hmemb).2 u rfl
    obtain ⟨rankB, hdecB, hboundB⟩ := hB.ranked
    obtain ⟨wb, hwb⟩ := walkBack_total (cfGet bv) rankB hdecB (bv.length + 1) u
      (Nat.lt_succ_of_lt (hboundB u hub))
    have hlastb : wb.getLast? = some goal := walkBack_last hB.chain _ u wb hwb hub
    obtain ⟨hcntb, hleb⟩ := walkBack_count_rank hdecB _ u wb hwb
    have hmnotb : m ∉ wb := by
      intro hmem
      have h1 := hleb m hmem
      have h2 := hdecB m u hgb
      omega
    dsimp only
    rw [hwb]
    rw [Option.getD_some]
    have hh : w.reverse.head? = some start := by
      rw [List.head?_reverse]
      exact hlastw
    refine ⟨?_, ?_, ?_⟩
    · match hwr : w.reverse, hh with
      | a :: t, hh =>
        have ha : a = start := Option.some.inj hh
        exact congrArg some ha
    · rw [List.getLast?_append_of_ne_nil _ (walkBack_ne_nil hwb)]
      exact hlastb
    · rw [List.count_append, List.count_reverse, hcntw,
        List.count_eq_zero.mpr hmnotb]

/-- Claim C4: whenever the forward and backward visited maps of
`bidirectional` share a cell, the run reaches the terminal (`done`)
state within one further iteration and stays there; and on success
(a recorded meeting point `m`) the emitted path is exactly
`bidirPath fv bv m` — the reversed forward predecessor walk from the
meeting cell (start → meeting) concatenated with the backward
predecessor chain from the meeting cell's backward predecessor
(meeting → goal) — so it begins at `start`, ends at `goal`, and
contains the meeting cell exactly once. -/
theorem bidirectional_meet (g : Grid) (start goal : Cell) (fuel : Nat) :
    ((∃ x, x ∈ cfKeys (bidirRun g start goal fuel).fv ∧
        x ∈ cfKeys (bidirRun g start goal fuel).bv) →
      ∀ k, fuel < k → (bidirRun g start goal k).done = true) ∧
    (∀ m, (bidirRun g start goal fuel).meeting = some m →
      (bidirectional g start goal fuel).2 =
        bidirPath (bidirRun g start goal fuel).fv (bidirRun g start goal fuel).bv m ∧
      (bidirectional g start goal fuel).2.head? = some start ∧
      (bidirectional g start goal fuel).2.getLast? = some goal ∧
      (bidirectional g start goal fuel).2.count m = 1) := by
  obtain ⟨invF, invB, invM⟩ := bidirRun_inv g start goal fuel
  constructor
  · rintro ⟨x, hx1, hx2⟩ k hk
    have h1 : (bidirRun g start goal (fuel + 1)).done = true := by
      show (bidirStep g (bidirRun g start goal fuel)).done = true
      exact bidirStep_meet (intersect_isSome x hx1 hx2)
    have h2 := bidirRun_done_mono g start goal (fuel + 1) h1 (k - (fuel + 1))
    have hke : fuel + 1 + (k - (fuel + 1)) = k := by omega
    rw [hke] at h2
    exact h2
  · intro m hm
    obtain ⟨hmf, hmb⟩ := invM m hm
    have hpath : (bidirectional g start goal fuel).2 =
        bidirPath (bidirRun g start goal fuel).fv (bidirRun g start goal fuel).bv m := by
      unfold bidirectional
      dsimp only
      rw [hm]
    obtain ⟨h1, h2, h3⟩ := bidirPath_spec invF invB hmf hmb
    rw [hpath]
    exact ⟨rfl, h1, h2, h3⟩

/-- Witness for C4 on the open 2×2 grid from `(0,0)` to `(1,1)`: after
one iteration the two visited maps share `(1,1)`, so iteration two is
terminal, and the recorded meeting point `(1,1)` yields a path that
starts at `(0,0)`, ends at `(1,1)`, and holds the meeting cell once. -/
theorem bidirectional_meet_witness :
    (bidirRun grid2 (0, 0) (1, 1) 2).done = true ∧
    (bidirectional grid2 (0, 0) (1, 1) 1).2.head? = some (0, 0) ∧
    (bidirectional grid2 (0, 0) (1, 1) 1).2.getLast? = some (1, 1) ∧
    (bidirectional grid2 (0, 0) (1, 1) 1).2.count (1, 1) = 1 :=
  ⟨(bidirectional_meet grid2 (0, 0) (1, 1) 1).1
      ⟨(1, 1), by decide, by decide⟩ 2 (by decide),
   ((bidirectional_meet grid2 (0, 0) (1, 1) 1).2 (1, 1) (by decide)).2.1,
   ((bidirectional_meet grid2 (0, 0) (1, 1) 1).2 (1, 1) (by decide)).2.2.1,
   ((bidirectional_meet grid2 (0, 0) (1, 1) 1).2 (1, 1) (by decide)).2.2.2⟩


end AIPathfinder
